import Mathlib

/-!
Compaction core of friggdb (`friggdb/compactor.go`)

A shallow embedding of `readerWriter.compact`, `currentObject`, `nextObject`
and `allDone`.  Go byte slices are lists of bytes, `uuid.UUID` block ids are
natural numbers, and the tenant id (passed through unchanged to every
collaborator) is fixed by the environment.  The collaborators of the
function (backend reader and writer, write-ahead log, compacted-block
marker, object decoder) are the fields of `Env`.  Every effect `compact`
performs on a collaborator is appended to a trace of `Event`s.
-/

namespace Friggdb

/-- Go `[]byte`. -/
abbrev Bytes := List Nat

/-- Go `uuid.UUID`. -/
abbrev BlockID := Nat

/-- Outcome of `json.Unmarshal` into an `encoding.BlockMeta`; its fields are
never inspected by `compact`. -/
abbrev BlockMeta := Bytes

/-- One written pair `(id, object)`. -/
abbrev Pair := Bytes × Bytes

def inputBlocks : Nat := 4

def outputBlocks : Nat := 2

def chunkSizeBytes : Nat := 1024 * 1024 * 10

/-- Go `math.MaxUint64`. -/
def MaxUint64 : Nat := 2 ^ 64 - 1

/-- Error values that reach `compact`. -/
inductive Err where
  /-- Go `io.EOF`. -/
  | eof
  /-- The error `bad object read during compaction`. -/
  | badObjectRead
  /-- The error `failed to find a lowest object in compaction`. -/
  | noLowest
  /-- Any other error value, as returned by a collaborator. -/
  | other (code : Nat)
  deriving DecidableEq, Repr

/-- Result of a Go call: a value, a returned error, or a run-time panic. -/
inductive Res (α : Type) where
  | ok (a : α)
  | error (e : Err)
  | panic
  deriving DecidableEq, Repr

/-- Modelled from the spec: `encoding.Record` is declared outside
`compactor.go`; the fields are the ones `nextObject` reads (`Start` is a
`uint64`, `Length` a `uint32`) plus the object id the index entry belongs
to. -/
structure Record where
  ID : Bytes
  Start : Nat
  Length : Nat
  deriving DecidableEq, Repr

/-- Modelled from the spec: the `bookmark` struct is declared outside
`compactor.go`; the fields are the ones `compact`, `currentObject` and
`nextObject` use.  The serialized index is kept as the list of records
that are still unconsumed. -/
structure Bookmark where
  id : BlockID
  index : List Record
  objects : Bytes
  currentID : Bytes
  currentObject : Bytes
  deriving DecidableEq, Repr

/-- Effects of `compact` on its collaborators, in the order performed. -/
inductive Event where
  /-- Successful `rw.wal.NewWorkingBlock`. -/
  | allocated
  /-- Successful `currentBlock.write(lowestID, lowestObject)`. -/
  | appended (id object : Bytes)
  /-- Successful `rw.w.Write` of a block holding the given records. -/
  | shipped (records : List Pair)
  /-- Call of `currentBlock.clear()`, with whether it succeeded. -/
  | cleared (succeeded : Bool)
  /-- Call of `rw.c.MarkBlockCompacted`, with whether it succeeded. -/
  | marked (id : BlockID) (succeeded : Bool)
  deriving DecidableEq, Repr

/-- The fallible calls `compact` makes on the write side. -/
inductive Call where
  | NewWorkingBlock
  | newCompactorBlock
  | write (id object : Bytes)
  | meta
  | index
  | bloom
  | Write (records : List Pair)
  | clear
  | MarkBlockCompacted (id : BlockID)
  deriving DecidableEq, Repr

/-- Collaborators of `compact`.  Reads are functions of their arguments.
Whether a write-side call fails may depend on everything done so far, so
`fails` receives the trace of earlier effects. -/
structure Env where
  /-- Read `rw.r.Index(id, tenantID)`, already split into records. -/
  Index : BlockID → Except Err (List Record)
  /-- Read `rw.r.BlockMeta(id, tenantID)`. -/
  BlockMeta : BlockID → Except Err Bytes
  /-- Go `json.Unmarshal(metaBytes, meta)`. -/
  jsonUnmarshal : Bytes → Except Err Friggdb.BlockMeta
  /-- Ranged read `r.Object(b.id, tenantID, start, length)`. -/
  Object : BlockID → Nat → Nat → Except Err Bytes
  /-- Go `encoding.UnmarshalObjectFromReader` on a reader over the buffer:
  the id, the object, and `objectReader.Len()` afterwards. -/
  UnmarshalObjectFromReader : Bytes → Except Err (Bytes × Bytes × Nat)
  /-- Error returned by a write-side call made after the given trace. -/
  fails : Call → List Event → Option Err

/-- Modelled from the spec: `encoding.RecordCount` is outside
`compactor.go`; it is the number of entries of an index. -/
def RecordCount (index : List Record) : Nat := index.length

/-- Go `bytes.Compare`: lexicographic comparison of byte slices. -/
def bytesCompare : Bytes → Bytes → Int
  | [], [] => 0
  | [], _ :: _ => -1
  | _ :: _, [] => 1
  | a :: as, b :: bs =>
    if a < b then -1 else if b < a then 1 else bytesCompare as bs

/-- The chunk-fill loop of `nextObject` (`for length < chunkSizeBytes`),
from the loop head: the remaining index, `start` and `length` when the loop
exits.  Modelled from the spec: `encoding.MarshalRecordAndAdvance` is
outside `compactor.go`; it yields the next index entry and the rest of the
index.  The loop does not test whether index entries remain; taking an entry
from an exhausted index is a slice access out of range, `none` here. -/
def fillChunk (chunk : Nat) : List Record → Nat → Nat → Option (List Record × Nat × Nat)
  | [], start, length =>
    if length < chunk then none else some ([], start, length)
  | rec :: rest, start, length =>
    if length < chunk then
      fillChunk chunk rest (if start = MaxUint64 then rec.Start else start)
        ((length + rec.Length) % 2 ^ 32)
    else some (rec :: rest, start, length)

/-- The second half of `nextObject`: decode one object from `b.objects` and
advance the buffer. -/
def decodeNext (env : Env) (b : Bookmark) : Bookmark × Res Pair :=
  match env.UnmarshalObjectFromReader b.objects with
  | .error e => (b, .error e)
  | .ok (id, object, readerLen) =>
    let bytesRead : Int := (b.objects.length : Int) - (readerLen : Int)
    if bytesRead < 0 ∨ bytesRead > (b.objects.length : Int) then
      (b, .error .badObjectRead)
    else
      ({ b with objects := b.objects.drop bytesRead.toNat }, .ok (id, object))

/-- Go `nextObject`, with the chunk threshold as a parameter.  The bookmark
is returned as the call leaves it.  When the chunk-fill loop takes a record
from the exhausted index, every record has been consumed by the
assignments to `b.index` before the panic, so the index is left empty. -/
def nextObject (env : Env) (chunk : Nat) (b : Bookmark) : Bookmark × Res Pair :=
  if b.objects.length = 0 then
    if b.index.length = 0 then (b, .error .eof)
    else
      match fillChunk chunk b.index MaxUint64 0 with
      | none => ({ b with index := [] }, .panic)
      | some (index, start, length) =>
        match env.Object b.id start length with
        | .error e => ({ b with index := index, objects := [] }, .error e)
        | .ok objects => decodeNext env { b with index := index, objects := objects }
  else decodeNext env b

/-- Go `currentObject`. -/
def currentObject (env : Env) (chunk : Nat) (b : Bookmark) : Bookmark × Res Pair :=
  if b.currentID.length ≠ 0 ∧ b.currentObject.length ≠ 0 then
    (b, .ok (b.currentID, b.currentObject))
  else
    match nextObject env chunk b with
    | (b1, .ok (id, object)) =>
      ({ b1 with currentID := id, currentObject := object }, .ok (id, object))
    | (b1, .error e) => ({ b1 with currentID := [], currentObject := [] }, .error e)
    | (b1, .panic) => (b1, .panic)

/-- Modelled from the spec: `bookmark.done` is outside `compactor.go`;
it is true once both the buffer and the index are exhausted and no current
pair is cached (a pair counts as cached exactly when `currentObject`
would return it without reading). -/
def Bookmark.done (b : Bookmark) : Bool :=
  decide (b.index.length = 0) && decide (b.objects.length = 0)
    && !(decide (b.currentID.length ≠ 0) && decide (b.currentObject.length ≠ 0))

/-- Go `allDone`. -/
def allDone : List Bookmark → Bool
  | [] => true
  | b :: bs => if !b.done then false else allDone bs

/-- The loading loop of `compact` (lines 35-59), from the given position:
`totalRecords`, the bookmarks and the decoded metas when it completes. -/
def load (env : Env) :
    List BlockID → Nat → List Bookmark → List BlockMeta →
      Except Err (Nat × List Bookmark × List BlockMeta)
  | [], totalRecords, bookmarks, blockMetas => .ok (totalRecords, bookmarks, blockMetas)
  | id :: ids, totalRecords, bookmarks, blockMetas =>
    match env.Index id with
    | .error e => .error e
    | .ok index =>
      match env.BlockMeta id with
      | .error e => .error e
      | .ok metaBytes =>
        match env.jsonUnmarshal metaBytes with
        | .error e => .error e
        | .ok meta =>
          load env ids (totalRecords + RecordCount index)
            (bookmarks ++ [{ id := id, index := index, objects := [],
                             currentID := [], currentObject := [] }])
            (blockMetas ++ [meta])

/-- The inner loop of `compact` (lines 69-89) over the remaining bookmarks,
with the running `lowestID` and `lowestObject`: the bookmarks as the scan
leaves them and the selected pair. -/
def findLowest (env : Env) (chunk : Nat) :
    List Bookmark → Bytes → Bytes → Res (List Bookmark × Bytes × Bytes)
  | [], lowestID, lowestObject => .ok ([], lowestID, lowestObject)
  | b :: bs, lowestID, lowestObject =>
    match currentObject env chunk b with
    | (_, .panic) => .panic
    | (b1, .error e) =>
      if e = .eof then
        match findLowest env chunk bs lowestID lowestObject with
        | .ok (bs1, id, object) => .ok (b1 :: bs1, id, object)
        | .error e1 => .error e1
        | .panic => .panic
      else .error e
    | (b1, .ok (currentID, currentObject)) =>
      let next : Bytes × Bytes :=
        if currentID = lowestID then
          if currentObject.length > lowestObject.length then (currentID, currentObject)
          else (lowestID, lowestObject)
        else if lowestID.length = 0 ∨ bytesCompare currentID lowestID = -1 then
          (currentID, currentObject)
        else (lowestID, lowestObject)
      match findLowest env chunk bs next.1 next.2 with
      | .ok (bs1, id, object) => .ok (b1 :: bs1, id, object)
      | .error e1 => .error e1
      | .panic => .panic

/-- Local state of the merge loop of `compact`.  Modelled from the spec:
`compactorBlock` is outside `compactor.go`; an open block is the ordered
sequence of pairs written to it and `length()` is their count. -/
structure State where
  bookmarks : List Bookmark
  currentBlock : Option (List Pair)
  trace : List Event
  deriving DecidableEq, Repr

/-- What one pass of the merge loop leaves behind. -/
inductive PassResult where
  /-- The pass completed; the loop continues from the state. -/
  | next (st : State)
  /-- The pass executed `return err` after the given effects. -/
  | fail (e : Err) (trace : List Event)
  /-- The pass panicked after the given effects. -/
  | panic (trace : List Event)
  deriving DecidableEq, Repr

/-- Lines 95-106 of `compact`: the open block, allocated if there is none.
An error comes with the trace at the point of return. -/
def openBlock (env : Env) (currentBlock : Option (List Pair)) (trace : List Event) :
    Except (Err × List Event) (List Pair × List Event) :=
  match currentBlock with
  | some blk => .ok (blk, trace)
  | none =>
    match env.fails .NewWorkingBlock trace with
    | some e => .error (e, trace)
    | none =>
      match env.fails .newCompactorBlock (trace ++ [.allocated]) with
      | some e => .error (e, trace ++ [.allocated])
      | none => .ok ([], trace ++ [.allocated])

/-- Lines 114-141 of `compact`: ship the block if it reached
`recordsPerBlock` records. -/
def shipIfDone (env : Env) (recordsPerBlock : Nat) (bookmarks : List Bookmark)
    (blk : List Pair) (trace : List Event) : PassResult :=
  if blk.length ≥ recordsPerBlock then
    match env.fails .meta trace with
    | some e => .fail e trace
    | none =>
      match env.fails .index trace with
      | some e => .fail e trace
      | none =>
        match env.fails .bloom trace with
        | some e => .fail e trace
        | none =>
          match env.fails (.Write blk) trace with
          | some e => .fail e trace
          | none =>
            let shippedTrace := trace ++ [.shipped blk]
            .next { bookmarks := bookmarks, currentBlock := none,
                    trace := shippedTrace ++
                      [.cleared (env.fails .clear shippedTrace).isNone] }
  else .next { bookmarks := bookmarks, currentBlock := some blk, trace := trace }

/-- One pass of the merge loop of `compact` (lines 65-141). -/
def pass (env : Env) (chunk recordsPerBlock : Nat) (st : State) : PassResult :=
  match findLowest env chunk st.bookmarks [] [] with
  | .panic => .panic st.trace
  | .error e => .fail e st.trace
  | .ok (bookmarks, lowestID, lowestObject) =>
    if lowestID.length = 0 ∨ lowestObject.length = 0 then .fail .noLowest st.trace
    else
      match openBlock env st.currentBlock st.trace with
      | .error (e, trace) => .fail e trace
      | .ok (blk, trace) =>
        match env.fails (.write lowestID lowestObject) trace with
        | some e => .fail e trace
        | none =>
          shipIfDone env recordsPerBlock bookmarks (blk ++ [(lowestID, lowestObject)])
            (trace ++ [.appended lowestID lowestObject])

/-- Lines 144-149 of `compact`: mark every input block compacted; the
error of a mark call is dropped. -/
def markAll (env : Env) : List BlockID → List Event → List Event
  | [], trace => trace
  | blockID :: ids, trace =>
    markAll env ids
      (trace ++ [.marked blockID (env.fails (.MarkBlockCompacted blockID) trace).isNone])

/-- How a run of `compact` stands after a bounded number of passes. -/
inductive Outcome where
  /-- The call returned `err` (`none` is Go `nil`) after the given effects. -/
  | returned (err : Option Err) (trace : List Event)
  /-- The call panicked after the given effects. -/
  | panicked (trace : List Event)
  /-- The merge loop is still running, in the given state. -/
  | running (st : State)
  deriving DecidableEq, Repr

/-- Effects performed so far. -/
def Outcome.trace : Outcome → List Event
  | .returned _ trace => trace
  | .panicked trace => trace
  | .running st => st.trace

/-- Whether the merge loop is still running. -/
def Outcome.isRunning : Outcome → Bool
  | .running _ => true
  | _ => false

/-- The merge loop of `compact` (`for !allDone(bookmarks)`) followed by the
marking loop and `return nil`, run for at most `fuel` passes. -/
def mergeLoop (env : Env) (chunk recordsPerBlock : Nat) (ids : List BlockID) :
    Nat → State → Outcome
  | fuel, st =>
    if allDone st.bookmarks then .returned none (markAll env ids st.trace)
    else
      match fuel with
      | 0 => .running st
      | fuel + 1 =>
        match pass env chunk recordsPerBlock st with
        | .next st1 => mergeLoop env chunk recordsPerBlock ids fuel st1
        | .fail e trace => .returned (some e) trace
        | .panic trace => .panicked trace

/-- Go `compact` with the chunk threshold and the number of output blocks as
parameters, run for at most `fuel` passes of the merge loop. -/
def compactWith (chunk blocks : Nat) (env : Env) (fuel : Nat) (ids : List BlockID) : Outcome :=
  match load env ids 0 [] [] with
  | .error e => .returned (some e) []
  | .ok (totalRecords, bookmarks, _) =>
    mergeLoop env chunk ((totalRecords / blocks) + 1) ids fuel
      { bookmarks := bookmarks, currentBlock := none, trace := [] }

/-- Go `readerWriter.compact`, run for at most `fuel` passes of the merge
loop. -/
def compact (env : Env) (fuel : Nat) (ids : List BlockID) : Outcome :=
  compactWith chunkSizeBytes outputBlocks env fuel ids

/-- Blocks written to the backend, in shipping order. -/
def shippedBlocks : List Event → List (List Pair)
  | [] => []
  | .shipped records :: rest => records :: shippedBlocks rest
  | _ :: rest => shippedBlocks rest

/-- Input block ids passed to `MarkBlockCompacted`, in call order. -/
def markedIDs : List Event → List BlockID
  | [] => []
  | .marked id _ :: rest => id :: markedIDs rest
  | _ :: rest => markedIDs rest

/-! ## A sample environment

The runs evaluated below use a small backend and object framing: a block is
a list of objects, each with its index record and the bytes the backend
returns for a ranged read starting at that record. -/

/-- Sample object framing: one byte with the id length, one byte with the
object length, then the id and the object.  A reader with no byte left at a
field boundary reports `io.EOF`; a field cut short reports another error. -/
def sampleDecoder : Bytes → Except Err (Bytes × Bytes × Nat)
  | [] => .error .eof
  | [_] => .error (.other 1)
  | idLen :: objLen :: rest =>
    if rest.length = 0 ∧ 0 < idLen + objLen then .error .eof
    else if rest.length < idLen + objLen then .error (.other 1)
    else .ok (rest.take idLen, (rest.drop idLen).take objLen,
              rest.length - (idLen + objLen))

/-- Sample frame of a pair. -/
def frame (id object : Bytes) : Bytes :=
  id.length :: object.length :: (id ++ object)

/-- Stored block of the sample backend. -/
abbrev SampleBlock := List (Record × Bytes)

/-- Bytes returned by the sample backend for a read starting at `start`. -/
def sampleRead : SampleBlock → Nat → Except Err Bytes
  | [], _ => .error (.other 2)
  | (rec, bytes) :: rest, start =>
    if rec.Start = start then .ok bytes else sampleRead rest start

/-- Sample environment over the given stored blocks (block ids are list
positions), with the given behaviour of the write-side calls. -/
def sampleEnv (blocks : List SampleBlock) (fails : Call → List Event → Option Err) : Env where
  Index := fun id =>
    match blocks.get? id with
    | some blk => .ok (blk.map Prod.fst)
    | none => .error (.other 3)
  BlockMeta := fun id =>
    match blocks.get? id with
    | some _ => .ok [id]
    | none => .error (.other 4)
  jsonUnmarshal := fun metaBytes => .ok metaBytes
  Object := fun id start _ =>
    match blocks.get? id with
    | some blk => sampleRead blk start
    | none => .error (.other 5)
  UnmarshalObjectFromReader := sampleDecoder
  fails := fails

/-- Write-side collaborators that never fail. -/
def neverFails : Call → List Event → Option Err := fun _ _ => none

/-- Stored block whose index records each declare a range of
`chunkSizeBytes` bytes, the k-th at offset `k * chunkSizeBytes`, so that
the chunk-fill loop of `nextObject` takes one record per chunk; the sample
backend answers the read at that offset with the frame of the k-th pair. -/
def chunkedBlock : List Pair → Nat → SampleBlock
  | [], _ => []
  | (id, object) :: rest, k =>
    ({ ID := id, Start := k * chunkSizeBytes, Length := chunkSizeBytes }, frame id object)
      :: chunkedBlock rest (k + 1)

/-- Effects performed when a pass is over. -/
def PassResult.trace : PassResult → List Event
  | .next st => st.trace
  | .fail _ trace => trace
  | .panic trace => trace

/-- Events a pass adds before its first write: the allocation of a block
when none is open. -/
def opened (st : State) : List Event :=
  match st.currentBlock with
  | some _ => []
  | none => [.allocated]

/-- Records of the open block at the start of a pass. -/
def openRecords (st : State) : List Pair :=
  match st.currentBlock with
  | some blk => blk
  | none => []

/-- Bookmark that the loading loop of `compact` builds for a block. -/
def freshBookmark (env : Env) (id : BlockID) : Bookmark :=
  { id := id,
    index := match env.Index id with
      | .ok index => index
      | .error _ => [],
    objects := [], currentID := [], currentObject := [] }

/-- Sum of the record counts of the input blocks. -/
def totalRecords (env : Env) (ids : List BlockID) : Nat :=
  (ids.map (fun id => RecordCount (freshBookmark env id).index)).sum

/-- Loading of one input block succeeds: index read, metadata read and
JSON decoding. -/
def Loads (env : Env) (id : BlockID) : Prop :=
  ∃ index metaBytes meta, env.Index id = .ok index ∧ env.BlockMeta id = .ok metaBytes ∧
    env.jsonUnmarshal metaBytes = .ok meta

/-- Loading of one input block fails with `e`: in the index read, or in the
metadata read, or in the JSON decoding of the metadata. -/
def LoadFails (env : Env) (id : BlockID) (e : Err) : Prop :=
  env.Index id = .error e ∨
  (∃ index, env.Index id = .ok index ∧ env.BlockMeta id = .error e) ∨
  (∃ index metaBytes, env.Index id = .ok index ∧ env.BlockMeta id = .ok metaBytes ∧
    env.jsonUnmarshal metaBytes = .error e)

/-- State in which `compact` enters the merge loop. -/
def initialState (env : Env) (ids : List BlockID) : State :=
  { bookmarks := ids.map (freshBookmark env), currentBlock := none, trace := [] }

/-- State after `n` completed passes of the merge loop, when the loop gets
that far: the loop condition held before each of them and none failed. -/
def passes (env : Env) (chunk recordsPerBlock : Nat) : Nat → State → Option State
  | 0, st => some st
  | n + 1, st =>
    if allDone st.bookmarks then none
    else
      match pass env chunk recordsPerBlock st with
      | .next st1 => passes env chunk recordsPerBlock n st1
      | .fail _ _ => none
      | .panic _ => none

/-- The bookmark yields its current pair or end-of-stream when scanned: no
panic and no error other than `io.EOF`. -/
def Yields (env : Env) (chunk : Nat) (b : Bookmark) : Prop :=
  (∃ p, (currentObject env chunk b).2 = .ok p) ∨ (currentObject env chunk b).2 = .error .eof

/-- Sample run, one block holding `(1, "x")` and `(2, "y")`. -/
def envTwoRecords : Env :=
  sampleEnv [chunkedBlock [([1], [120]), ([2], [121])] 0] neverFails

/-- Sample run, block 0 holding `(1, "x")`, `(3, "y")` and block 1 holding
`(2, "z")`, `(3, "yy")`. -/
def envTie : Env :=
  sampleEnv [chunkedBlock [([1], [120]), ([3], [121])] 0,
             chunkedBlock [([2], [122]), ([3], [121, 121])] 0] neverFails

/-- Sample run, block 0 holding ids 1, 2, 3, 4 with objects `"a"`, `"b"`,
`"c"`, `"d"` and an empty block 1. -/
def envCoverage : Env :=
  sampleEnv [chunkedBlock [([1], [97]), ([2], [98]), ([3], [99]), ([4], [100])] 0, []]
    neverFails

/-- Sample run, one block holding the single record `(1, "x")`. -/
def envOneRecord : Env :=
  sampleEnv [chunkedBlock [([1], [120])] 0] neverFails

/-- Backend whose `Write` fails once a block has been shipped. -/
def failsSecondShip : Call → List Event → Option Err
  | .Write _, trace => if shippedBlocks trace = [] then none else some (.other 9)
  | _, _ => none

/-- Sample run, one block holding `(1, "x")`, the second `Write` failing. -/
def envSecondShipFails : Env :=
  sampleEnv [chunkedBlock [([1], [120])] 0] failsSecondShip

/-- Marker whose `MarkBlockCompacted` fails for block 0. -/
def failsFirstMark : Call → List Event → Option Err
  | .MarkBlockCompacted 0, _ => some (.other 7)
  | _, _ => none

/-- Sample run, two empty blocks, marking block 0 fails. -/
def envEmptyBlocks : Env :=
  sampleEnv [[], []] failsFirstMark

/-- Sample run, block 0 holding a frame cut off after its two length bytes
(the sample decoder reports `io.EOF` for it) and block 1 holding
`(2, "z")`. -/
def envTruncated : Env :=
  sampleEnv [[({ ID := [1], Start := 0, Length := chunkSizeBytes }, [1, 1])],
             chunkedBlock [([2], [122])] 0] neverFails

/-- Sample run, one block holding `(1, "x")` followed by a corrupt frame. -/
def envCorruptSecond : Env :=
  sampleEnv [[({ ID := [1], Start := 0, Length := chunkSizeBytes }, frame [1] [120]),
              ({ ID := [2], Start := chunkSizeBytes, Length := chunkSizeBytes }, [1])]]
    neverFails

/-- Sample run, block 0 holding `(1, "x")` and block 1 starting with a
corrupt frame. -/
def envCorruptFirst : Env :=
  sampleEnv [chunkedBlock [([1], [120])] 0,
             [({ ID := [2], Start := 0, Length := chunkSizeBytes }, [1])]] neverFails

/-- Number of working blocks allocated so far. -/
def allocations : List Event → Nat
  | [] => 0
  | .allocated :: rest => allocations rest + 1
  | _ :: rest => allocations rest

/-- Number of accumulators that are open in a state. -/
def openCount (st : State) : Nat :=
  match st.currentBlock with
  | some _ => 1
  | none => 0

/-- What holds of the accumulator between passes: an open block holds at
least one and fewer than `rpb` records, every shipped block holds `rpb`
records, and every allocated block is either shipped or the open one. -/
def BlockInv (rpb : Nat) (st : State) : Prop :=
  (∀ blk, st.currentBlock = some blk → 1 ≤ blk.length ∧ blk.length < rpb) ∧
  (∀ blk ∈ shippedBlocks st.trace, blk.length = rpb) ∧
  allocations st.trace = (shippedBlocks st.trace).length + openCount st

/-- Sample run, one block whose only chunk holds a frame cut off after its
two length bytes. -/
def envTruncatedOnly : Env :=
  sampleEnv [[({ ID := [1], Start := 0, Length := chunkSizeBytes }, [1, 1])]] neverFails

/-- Arithmetic sum of the `Length` fields of index records. -/
def sumLength : List Record → Nat
  | [] => 0
  | rec :: rest => rec.Length + sumLength rest

/-- Value of the `uint32` accumulator `length` of `nextObject` after the
given records, from the given value: every addition wraps at `2 ^ 32`. -/
def accLength : List Record → Nat → Nat
  | [], length => length
  | rec :: rest, length => accLength rest ((length + rec.Length) % 2 ^ 32)

/-- Value of `start` in `nextObject` after the given records, from the
given value: it is assigned while it equals the sentinel `MaxUint64`. -/
def accStart : List Record → Nat → Nat
  | [], start => start
  | rec :: rest, start => accStart rest (if start = MaxUint64 then rec.Start else start)

/-- Index of a block file that stores the frames of the given pairs one
after the other, the first at `offset`. -/
def contiguousIndex : List Pair → Nat → List Record
  | [], _ => []
  | (id, object) :: rest, offset =>
    { ID := id, Start := offset, Length := (frame id object).length }
      :: contiguousIndex rest (offset + (frame id object).length)

/-- Object bytes of a block file that stores the frames of the given pairs
one after the other. -/
def contiguousBytes : List Pair → Bytes
  | [] => []
  | (id, object) :: rest => frame id object ++ contiguousBytes rest

/-- Sample environment over block files with contiguous objects (block ids
are list positions): a ranged read returns the bytes of the file in
`[start, start + length)`; the write side never fails. -/
def contiguousEnv (blocks : List (List Pair)) : Env where
  Index := fun id =>
    match blocks.get? id with
    | some pairs => .ok (contiguousIndex pairs 0)
    | none => .error (.other 3)
  BlockMeta := fun id =>
    match blocks.get? id with
    | some _ => .ok [id]
    | none => .error (.other 4)
  jsonUnmarshal := fun metaBytes => .ok metaBytes
  Object := fun id start length =>
    match blocks.get? id with
    | some pairs => .ok (((contiguousBytes pairs).drop start).take length)
    | none => .error (.other 5)
  UnmarshalObjectFromReader := sampleDecoder
  fails := neverFails

/-- Sample run, one block file holding `(1, "x")` and `(2, "y")`, eight
bytes of objects in all. -/
def envSmallBlock : Env :=
  contiguousEnv [[([1], [120]), ([2], [121])]]

/-- Sample backend that answers every ranged read with an error value
carrying the requested length. -/
def requestEnv : Env where
  Index := fun _ => .ok []
  BlockMeta := fun id => .ok [id]
  jsonUnmarshal := fun metaBytes => .ok metaBytes
  Object := fun _ _ length => .error (.other length)
  UnmarshalObjectFromReader := sampleDecoder
  fails := neverFails

/-- Index whose second record brings the 32-bit accumulator past
`2 ^ 32`: lengths 5, `2 ^ 32 - 1` and `chunkSizeBytes`. -/
def wrappingIndex : List Record :=
  [{ ID := [1], Start := 0, Length := 5 },
   { ID := [2], Start := 5, Length := 4294967295 },
   { ID := [3], Start := 4294967300, Length := chunkSizeBytes }]

/-- Index whose first record starts at the offset `MaxUint64`. -/
def sentinelIndex : List Record :=
  [{ ID := [1], Start := MaxUint64, Length := 5 },
   { ID := [2], Start := 7, Length := chunkSizeBytes }]

/-- Pairs that the scan of a pass obtains from `currentObject`, in bookmark
order: the current pairs of the bookmarks that did not report an error. -/
def candidates (env : Env) (chunk : Nat) : List Bookmark → List Pair
  | [] => []
  | b :: bs =>
    match (currentObject env chunk b).2 with
    | .ok p => p :: candidates env chunk bs
    | _ => candidates env chunk bs

/-- Lines 80-88 of `compact`: the running lowest pair after a candidate. -/
def choose (lowest current : Pair) : Pair :=
  if current.1 = lowest.1 then
    if current.2.length > lowest.2.length then current else lowest
  else if lowest.1.length = 0 ∨ bytesCompare current.1 lowest.1 = -1 then current
  else lowest

/-- Sample run, one block whose only chunk holds `(1, "")` followed by
`(2, "y")`. -/
def envEmptyObject : Env :=
  sampleEnv [[({ ID := [1], Start := 0, Length := chunkSizeBytes },
               frame [1] [] ++ frame [2] [121])]] neverFails

/-- How a sequence of `nextObject` calls stands. -/
inductive DrainEnd where
  /-- Calls remain to be made. -/
  | more
  /-- The last call returned the error. -/
  | ended (e : Err)
  /-- The last call panicked. -/
  | panicked
  deriving DecidableEq, Repr

/-- Repeated `nextObject` calls on a bookmark, at most `fuel` of them: the
pairs yielded, in order, and how the sequence stands. -/
def drain (env : Env) (chunk : Nat) : Nat → Bookmark → List Pair × DrainEnd
  | 0, _ => ([], .more)
  | fuel + 1, b =>
    match nextObject env chunk b with
    | (b1, .ok p) => (p :: (drain env chunk fuel b1).1, (drain env chunk fuel b1).2)
    | (_, .error e) => ([], .ended e)
    | (_, .panic) => ([], .panicked)

/-- Sample run, block 0 holding the id `[2]` and block 1 holding the
two-byte id `[1, 0]`. -/
def envByteOrder : Env :=
  sampleEnv [chunkedBlock [([2], [120])] 0, chunkedBlock [([1, 0], [121])] 0] neverFails

/-- The bookmark caches a current pair: `currentObject` returns it without
reading. -/
def Cached (b : Bookmark) : Prop :=
  b.currentID.length ≠ 0 ∧ b.currentObject.length ≠ 0

/-- Go `allDone`, with `bookmark.done` (declared outside `compactor.go`)
as a parameter. -/
def allDoneBy (done : Bookmark → Bool) : List Bookmark → Bool
  | [] => true
  | b :: bs => if !done b then false else allDoneBy done bs

/-- The merge loop of `compact` followed by the marking loop and
`return nil`, with `bookmark.done` as a parameter, run for at most `fuel`
passes. -/
def mergeLoopBy (done : Bookmark → Bool) (env : Env) (chunk recordsPerBlock : Nat)
    (ids : List BlockID) : Nat → State → Outcome
  | fuel, st =>
    if allDoneBy done st.bookmarks then .returned none (markAll env ids st.trace)
    else
      match fuel with
      | 0 => .running st
      | fuel + 1 =>
        match pass env chunk recordsPerBlock st with
        | .next st1 => mergeLoopBy done env chunk recordsPerBlock ids fuel st1
        | .fail e trace => .returned (some e) trace
        | .panic trace => .panicked trace

/-- Go `readerWriter.compact`, with `bookmark.done` as a parameter, run for
at most `fuel` passes of the merge loop. -/
def compactBy (done : Bookmark → Bool) (env : Env) (fuel : Nat) (ids : List BlockID) :
    Outcome :=
  match load env ids 0 [] [] with
  | .error e => .returned (some e) []
  | .ok (totalRecords, bookmarks, _) =>
    mergeLoopBy done env chunkSizeBytes ((totalRecords / outputBlocks) + 1) ids fuel
      { bookmarks := bookmarks, currentBlock := none, trace := [] }

/-- State after `n` completed passes of the merge loop, with
`bookmark.done` as a parameter. -/
def passesBy (done : Bookmark → Bool) (env : Env) (chunk recordsPerBlock : Nat) :
    Nat → State → Option State
  | 0, st => some st
  | n + 1, st =>
    if allDoneBy done st.bookmarks then none
    else
      match pass env chunk recordsPerBlock st with
      | .next st1 => passesBy done env chunk recordsPerBlock n st1
      | .fail _ _ => none
      | .panic _ => none

/-- Sample `done`: the buffer and the index are exhausted, whether or not a
current pair is cached. -/
def doneExhausted (b : Bookmark) : Bool :=
  decide (b.index.length = 0) && decide (b.objects.length = 0)

/-- Collaborators whose `clear` always fails and whose
`MarkBlockCompacted` fails for block 0. -/
def failsClearAndMark : Call → List Event → Option Err
  | .clear, _ => some (.other 8)
  | .MarkBlockCompacted 0, _ => some (.other 7)
  | _, _ => none

/-- Sample run, block 0 holding `(1, "x")` and an empty block 1, every
`clear` failing and the marking of block 0 failing. -/
def envClearAndMarkFail : Env :=
  sampleEnv [chunkedBlock [([1], [120])] 0, []] failsClearAndMark

/-! ## Structure of one pass -/

theorem markedIDs_append (a b : List Event) :
    markedIDs (a ++ b) = markedIDs a ++ markedIDs b := by
  induction a with
  | nil => rfl
  | cons ev rest ih => cases ev <;> simp [markedIDs, ih]

theorem shippedBlocks_append (a b : List Event) :
    shippedBlocks (a ++ b) = shippedBlocks a ++ shippedBlocks b := by
  induction a with
  | nil => rfl
  | cons ev rest ih => cases ev <;> simp [shippedBlocks, ih]

theorem openBlock_ok {env : Env} {st : State} {blk : List Pair} {trace : List Event}
    (h : openBlock env st.currentBlock st.trace = .ok (blk, trace)) :
    blk = openRecords st ∧ trace = st.trace ++ opened st := by
  unfold openBlock at h
  unfold openRecords opened
  cases hcb : st.currentBlock with
  | some b =>
    rw [hcb] at h
    simp only [Except.ok.injEq, Prod.mk.injEq] at h
    simp [h.1, h.2]
  | none =>
    rw [hcb] at h
    simp only at h
    split at h
    · cases h
    · split at h
      · cases h
      · simp only [Except.ok.injEq, Prod.mk.injEq] at h
        simp [h.1, h.2]

theorem openBlock_error {env : Env} {st : State} {e : Err} {trace : List Event}
    (h : openBlock env st.currentBlock st.trace = .error (e, trace)) :
    trace = st.trace ∨ trace = st.trace ++ opened st := by
  unfold openBlock at h
  unfold opened
  cases hcb : st.currentBlock with
  | some b =>
    rw [hcb] at h
    cases h
  | none =>
    rw [hcb] at h
    simp only at h
    split at h
    · simp only [Except.error.injEq, Prod.mk.injEq] at h
      exact Or.inl h.2.symm
    · split at h
      · simp only [Except.error.injEq, Prod.mk.injEq] at h
        exact Or.inr h.2.symm
      · cases h

/-- The three ways `shipIfDone` ends. -/
theorem shipIfDone_cases (env : Env) (rpb : Nat) (bms : List Bookmark)
    (blk : List Pair) (trace : List Event) :
    (blk.length < rpb ∧
      shipIfDone env rpb bms blk trace
        = .next { bookmarks := bms, currentBlock := some blk, trace := trace }) ∨
    (rpb ≤ blk.length ∧ ∃ e, shipIfDone env rpb bms blk trace = .fail e trace) ∨
    (rpb ≤ blk.length ∧ ∃ ok,
      shipIfDone env rpb bms blk trace
        = .next { bookmarks := bms, currentBlock := none,
                  trace := trace ++ [.shipped blk] ++ [.cleared ok] }) := by
  unfold shipIfDone
  by_cases hlen : blk.length ≥ rpb
  · rw [if_pos hlen]
    right
    cases h1 : env.fails .meta trace with
    | some e => exact Or.inl ⟨hlen, e, rfl⟩
    | none =>
      cases h2 : env.fails .index trace with
      | some e => exact Or.inl ⟨hlen, e, rfl⟩
      | none =>
        cases h3 : env.fails .bloom trace with
        | some e => exact Or.inl ⟨hlen, e, rfl⟩
        | none =>
          cases h4 : env.fails (.Write blk) trace with
          | some e => exact Or.inl ⟨hlen, e, rfl⟩
          | none => exact Or.inr ⟨hlen, _, rfl⟩
  · rw [if_neg hlen]
    exact Or.inl ⟨Nat.lt_of_not_le hlen, rfl⟩

/-- The ways one pass ends: a panic or an error before anything is done, an
error after the allocation and before the write, or the write followed by
`shipIfDone`. -/
theorem pass_cases (env : Env) (chunk rpb : Nat) (st : State) :
    pass env chunk rpb st = .panic st.trace ∨
    (∃ e, pass env chunk rpb st = .fail e st.trace) ∨
    (∃ bms id object, findLowest env chunk st.bookmarks [] [] = .ok (bms, id, object) ∧
      id.length ≠ 0 ∧ object.length ≠ 0 ∧
      ((∃ e, pass env chunk rpb st = .fail e (st.trace ++ opened st)) ∨
        pass env chunk rpb st
          = shipIfDone env rpb bms (openRecords st ++ [(id, object)])
              (st.trace ++ opened st ++ [.appended id object]))) := by
  unfold pass
  cases hf : findLowest env chunk st.bookmarks [] [] with
  | panic => exact Or.inl rfl
  | error e => exact Or.inr (Or.inl ⟨e, rfl⟩)
  | ok r =>
    obtain ⟨bms, id, object⟩ := r
    simp only
    by_cases hlow : id.length = 0 ∨ object.length = 0
    · rw [if_pos hlow]
      exact Or.inr (Or.inl ⟨_, rfl⟩)
    · rw [if_neg hlow]
      have hid : id.length ≠ 0 := fun h => hlow (Or.inl h)
      have hob : object.length ≠ 0 := fun h => hlow (Or.inr h)
      cases ho : openBlock env st.currentBlock st.trace with
      | error r =>
        obtain ⟨e, trace⟩ := r
        rcases openBlock_error ho with ht | ht
        · subst ht
          exact Or.inr (Or.inl ⟨e, rfl⟩)
        · subst ht
          exact Or.inr (Or.inr ⟨bms, id, object, rfl, hid, hob, Or.inl ⟨e, rfl⟩⟩)
      | ok r =>
        obtain ⟨blk, trace⟩ := r
        obtain ⟨hb, ht⟩ := openBlock_ok ho
        subst hb
        subst ht
        simp only
        refine Or.inr (Or.inr ⟨bms, id, object, rfl, hid, hob, ?_⟩)
        cases hw : env.fails (.write id object) (st.trace ++ opened st) with
        | some e => exact Or.inl ⟨e, rfl⟩
        | none => exact Or.inr rfl

theorem markedIDs_opened (st : State) : markedIDs (opened st) = [] := by
  unfold opened
  cases st.currentBlock <;> rfl

theorem shippedBlocks_opened (st : State) : shippedBlocks (opened st) = [] := by
  unfold opened
  cases st.currentBlock <;> rfl

/-- A pass only appends to the trace, never a mark, and at most one shipped
block: the open block together with the pair written in this pass. -/
theorem pass_trace (env : Env) (chunk rpb : Nat) (st : State) :
    ∃ added, (pass env chunk rpb st).trace = st.trace ++ added ∧
      markedIDs added = [] ∧
      (shippedBlocks added = [] ∨
        ∃ p, shippedBlocks added = [openRecords st ++ [p]] ∧
          rpb ≤ (openRecords st ++ [p]).length) := by
  rcases pass_cases env chunk rpb st with h | ⟨e, h⟩ | ⟨bms, id, object, -, -, -, h⟩
  · exact ⟨[], by simp [h, PassResult.trace], rfl, Or.inl rfl⟩
  · exact ⟨[], by simp [h, PassResult.trace], rfl, Or.inl rfl⟩
  · rcases h with ⟨e, h⟩ | h
    · exact ⟨opened st, by simp [h, PassResult.trace], markedIDs_opened st,
        Or.inl (shippedBlocks_opened st)⟩
    · rcases shipIfDone_cases env rpb bms (openRecords st ++ [(id, object)])
          (st.trace ++ opened st ++ [.appended id object])
        with ⟨-, hs⟩ | ⟨-, e, hs⟩ | ⟨hlen, ok, hs⟩
      · refine ⟨opened st ++ [.appended id object], by rw [h, hs]; simp [PassResult.trace], ?_,
          Or.inl ?_⟩
        · simp [markedIDs_append, markedIDs_opened, markedIDs]
        · simp [shippedBlocks_append, shippedBlocks_opened, shippedBlocks]
      · refine ⟨opened st ++ [.appended id object], by rw [h, hs]; simp [PassResult.trace], ?_,
          Or.inl ?_⟩
        · simp [markedIDs_append, markedIDs_opened, markedIDs]
        · simp [shippedBlocks_append, shippedBlocks_opened, shippedBlocks]
      · refine ⟨opened st ++ [.appended id object]
            ++ [.shipped (openRecords st ++ [(id, object)])] ++ [.cleared ok],
          by rw [h, hs]; simp [PassResult.trace], ?_, Or.inr ⟨(id, object), ?_, hlen⟩⟩
        · simp [markedIDs_append, markedIDs_opened, markedIDs]
        · simp [shippedBlocks_append, shippedBlocks_opened, shippedBlocks]

/-- After a completed pass the open block is below the target size. -/
theorem pass_next_open {env : Env} {chunk rpb : Nat} {st st1 : State} (hpos : 0 < rpb)
    (h : pass env chunk rpb st = .next st1) : (openRecords st1).length < rpb := by
  rcases pass_cases env chunk rpb st with hp | ⟨e, hp⟩ | ⟨bms, id, object, -, -, -, hp⟩
  · rw [hp] at h; cases h
  · rw [hp] at h; cases h
  · rcases hp with ⟨e, hp⟩ | hp
    · rw [hp] at h; cases h
    · rw [hp] at h
      rcases shipIfDone_cases env rpb bms (openRecords st ++ [(id, object)])
          (st.trace ++ opened st ++ [.appended id object])
        with ⟨hlen, hs⟩ | ⟨-, e, hs⟩ | ⟨-, ok, hs⟩
      · rw [hs] at h
        cases h
        simpa [openRecords] using hlen
      · rw [hs] at h; cases h
      · rw [hs] at h
        cases h
        simpa [openRecords] using hpos

/-! ## The merge loop -/

theorem markAll_trace (env : Env) (ids : List BlockID) (trace : List Event) :
    ∃ added, markAll env ids trace = trace ++ added ∧ markedIDs added = ids ∧
      shippedBlocks added = [] ∧ added.length = ids.length := by
  induction ids generalizing trace with
  | nil => exact ⟨[], by simp [markAll], rfl, rfl, rfl⟩
  | cons id rest ih =>
    obtain ⟨added, h1, h2, h3, h4⟩ :=
      ih (trace ++ [.marked id (env.fails (.MarkBlockCompacted id) trace).isNone])
    refine ⟨.marked id (env.fails (.MarkBlockCompacted id) trace).isNone :: added,
      ?_, ?_, ?_, ?_⟩
    · simp [markAll, h1]
    · simp [markedIDs, h2]
    · simp [shippedBlocks, h3]
    · simp [h4]

/-- The merge loop only appends to the trace. -/
theorem mergeLoop_trace (env : Env) (chunk rpb : Nat) (ids : List BlockID) (fuel : Nat)
    (st : State) :
    ∃ added, (mergeLoop env chunk rpb ids fuel st).trace = st.trace ++ added := by
  induction fuel generalizing st with
  | zero =>
    unfold mergeLoop
    by_cases hd : allDone st.bookmarks = true
    · rw [if_pos hd]
      obtain ⟨added, h, -, -, -⟩ := markAll_trace env ids st.trace
      exact ⟨added, h⟩
    · rw [if_neg hd]
      exact ⟨[], by simp [Outcome.trace]⟩
  | succ fuel ih =>
    unfold mergeLoop
    by_cases hd : allDone st.bookmarks = true
    · rw [if_pos hd]
      obtain ⟨added, h, -, -, -⟩ := markAll_trace env ids st.trace
      exact ⟨added, h⟩
    · rw [if_neg hd]
      obtain ⟨added, hp, -, -⟩ := pass_trace env chunk rpb st
      cases hpass : pass env chunk rpb st with
      | next st1 =>
        rw [hpass] at hp
        obtain ⟨more, hm⟩ := ih st1
        refine ⟨added ++ more, ?_⟩
        simp only [hm]
        simp only [PassResult.trace] at hp
        rw [hp, List.append_assoc]
      | fail e trace =>
        rw [hpass] at hp
        exact ⟨added, hp⟩
      | panic trace =>
        rw [hpass] at hp
        exact ⟨added, hp⟩

/-- A run of the merge loop that returns an error has marked nothing. -/
theorem mergeLoop_error_marks {env : Env} {chunk rpb : Nat} {ids : List BlockID} {fuel : Nat}
    {st : State} {e : Err} {trace : List Event}
    (h : mergeLoop env chunk rpb ids fuel st = .returned (some e) trace) :
    markedIDs trace = markedIDs st.trace := by
  induction fuel generalizing st with
  | zero =>
    unfold mergeLoop at h
    by_cases hd : allDone st.bookmarks = true
    · rw [if_pos hd] at h; cases h
    · rw [if_neg hd] at h; cases h
  | succ fuel ih =>
    unfold mergeLoop at h
    by_cases hd : allDone st.bookmarks = true
    · rw [if_pos hd] at h; cases h
    · rw [if_neg hd] at h
      obtain ⟨added, hp, hm, -⟩ := pass_trace env chunk rpb st
      cases hpass : pass env chunk rpb st with
      | next st1 =>
        rw [hpass] at h hp
        simp only [PassResult.trace] at hp
        rw [ih h, hp, markedIDs_append, hm, List.append_nil]
      | fail e1 trace1 =>
        rw [hpass] at h hp
        simp only [PassResult.trace] at hp
        cases h
        rw [hp, markedIDs_append, hm, List.append_nil]
      | panic trace1 =>
        rw [hpass] at h
        cases h

/-- Every state the merge loop passes through on the way to an error is
kept: the final trace extends the trace of that state. -/
theorem mergeLoop_error_extends {env : Env} {chunk rpb : Nat} {ids : List BlockID}
    {fuel n : Nat} {st0 st : State} {e : Err} {trace : List Event}
    (h : mergeLoop env chunk rpb ids fuel st0 = .returned (some e) trace)
    (hn : mergeLoop env chunk rpb ids n st0 = .running st) :
    ∃ later, trace = st.trace ++ later := by
  induction fuel generalizing st0 n with
  | zero =>
    unfold mergeLoop at h
    by_cases hd : allDone st0.bookmarks = true
    · rw [if_pos hd] at h; cases h
    · rw [if_neg hd] at h; cases h
  | succ fuel ih =>
    cases n with
    | zero =>
      obtain ⟨added, ha⟩ := mergeLoop_trace env chunk rpb ids (fuel + 1) st0
      rw [h] at ha
      unfold mergeLoop at hn
      by_cases hd : allDone st0.bookmarks = true
      · rw [if_pos hd] at hn; cases hn
      · rw [if_neg hd] at hn
        cases hn
        exact ⟨added, ha⟩
    | succ n =>
      unfold mergeLoop at h hn
      by_cases hd : allDone st0.bookmarks = true
      · rw [if_pos hd] at h; cases h
      · rw [if_neg hd] at h hn
        cases hpass : pass env chunk rpb st0 with
        | next st1 =>
          rw [hpass] at h hn
          exact ih h hn
        | fail e1 trace1 =>
          rw [hpass] at hn; cases hn
        | panic trace1 =>
          rw [hpass] at hn; cases hn

/-- Every block the merge loop ships holds exactly `recordsPerBlock`
records, provided that held of the blocks shipped before and the open
block is below that size. -/
theorem mergeLoop_shipped_length {env : Env} {chunk rpb : Nat} {ids : List BlockID}
    (hpos : 0 < rpb) (fuel : Nat) (st : State)
    (hs : ∀ blk ∈ shippedBlocks st.trace, blk.length = rpb)
    (ho : (openRecords st).length < rpb) :
    ∀ blk ∈ shippedBlocks (mergeLoop env chunk rpb ids fuel st).trace, blk.length = rpb := by
  have hmark : ∀ blk ∈ shippedBlocks (markAll env ids st.trace), blk.length = rpb := by
    obtain ⟨added, h, -, h3, -⟩ := markAll_trace env ids st.trace
    rw [h, shippedBlocks_append, h3, List.append_nil]
    exact hs
  have hpass : ∀ blk ∈ shippedBlocks (pass env chunk rpb st).trace, blk.length = rpb := by
    obtain ⟨added, hp, -, hsh⟩ := pass_trace env chunk rpb st
    rw [hp, shippedBlocks_append]
    intro blk hb
    rcases List.mem_append.mp hb with hb | hb
    · exact hs blk hb
    · rcases hsh with hsh | ⟨p, hsh, hlen⟩
      · rw [hsh] at hb; cases hb
      · rw [hsh] at hb
        have hb : blk = openRecords st ++ [p] := by simpa using hb
        subst hb
        simp only [List.length_append, List.length_singleton] at hlen ⊢
        omega
  induction fuel generalizing st with
  | zero =>
    unfold mergeLoop
    by_cases hd : allDone st.bookmarks = true
    · rw [if_pos hd]; exact hmark
    · rw [if_neg hd]; exact hs
  | succ fuel ih =>
    unfold mergeLoop
    by_cases hd : allDone st.bookmarks = true
    · rw [if_pos hd]; exact hmark
    · rw [if_neg hd]
      cases hp : pass env chunk rpb st with
      | next st1 =>
        rw [hp] at hpass
        have hmark1 : ∀ blk ∈ shippedBlocks (markAll env ids st1.trace), blk.length = rpb := by
          obtain ⟨added, h, -, h3, -⟩ := markAll_trace env ids st1.trace
          rw [h, shippedBlocks_append, h3, List.append_nil]
          exact hpass
        have hpass1 :
            ∀ blk ∈ shippedBlocks (pass env chunk rpb st1).trace, blk.length = rpb := by
          obtain ⟨added, hp1, -, hsh⟩ := pass_trace env chunk rpb st1
          rw [hp1, shippedBlocks_append]
          intro blk hb
          rcases List.mem_append.mp hb with hb | hb
          · exact hpass blk hb
          · rcases hsh with hsh | ⟨p, hsh, hlen⟩
            · rw [hsh] at hb; cases hb
            · rw [hsh] at hb
              have hb : blk = openRecords st1 ++ [p] := by simpa using hb
              subst hb
              have := pass_next_open hpos hp
              simp only [List.length_append, List.length_singleton] at hlen ⊢
              omega
        exact ih st1 hpass (pass_next_open hpos hp) hmark1 hpass1
      | fail e trace =>
        rw [hp] at hpass; exact hpass
      | panic trace =>
        rw [hp] at hpass; exact hpass

/-! ## Loading -/

theorem load_fails {env : Env} {pre : List BlockID} {id : BlockID} {post : List BlockID}
    {e : Err} (hpre : ∀ x ∈ pre, Loads env x) (hfail : LoadFails env id e)
    (total : Nat) (bms : List Bookmark) (metas : List BlockMeta) :
    load env (pre ++ id :: post) total bms metas = .error e := by
  induction pre generalizing total bms metas with
  | nil =>
    simp only [List.nil_append]
    unfold load
    rcases hfail with h | ⟨index, h1, h2⟩ | ⟨index, metaBytes, h1, h2, h3⟩
    · rw [h]
    · rw [h1]; simp only; rw [h2]
    · rw [h1]; simp only; rw [h2]; simp only; rw [h3]
  | cons x rest ih =>
    obtain ⟨index, metaBytes, meta, h1, h2, h3⟩ := hpre x (List.mem_cons_self x rest)
    simp only [List.cons_append]
    unfold load
    rw [h1]; simp only; rw [h2]; simp only; rw [h3]; simp only
    exact ih (fun y hy => hpre y (List.mem_cons_of_mem x hy)) _ _ _

theorem load_ok {env : Env} {ids : List BlockID} {total : Nat} {bms : List Bookmark}
    {metas : List BlockMeta} {total1 : Nat} {bms1 : List Bookmark} {metas1 : List BlockMeta}
    (h : load env ids total bms metas = .ok (total1, bms1, metas1)) :
    total1 = total + totalRecords env ids ∧ bms1 = bms ++ ids.map (freshBookmark env) ∧
      ∀ x ∈ ids, Loads env x := by
  induction ids generalizing total bms metas with
  | nil =>
    unfold load at h
    simp only [Except.ok.injEq, Prod.mk.injEq] at h
    simp [totalRecords, h.1, h.2.1]
  | cons x rest ih =>
    unfold load at h
    cases h1 : env.Index x with
    | error e => rw [h1] at h; cases h
    | ok index =>
      rw [h1] at h
      simp only at h
      cases h2 : env.BlockMeta x with
      | error e => rw [h2] at h; cases h
      | ok metaBytes =>
        rw [h2] at h
        simp only at h
        cases h3 : env.jsonUnmarshal metaBytes with
        | error e => rw [h3] at h; cases h
        | ok meta =>
          rw [h3] at h
          simp only at h
          obtain ⟨ht, hb, hl⟩ := ih h
          refine ⟨?_, ?_, ?_⟩
          · have hx : (freshBookmark env x).index = index := by
              simp only [freshBookmark, h1]
            simp only [totalRecords, List.map_cons, List.sum_cons] at ht ⊢
            rw [hx]
            omega
          · simp [hb, freshBookmark, h1]
          · intro y hy
            rcases List.mem_cons.mp hy with rfl | hy
            · exact ⟨index, metaBytes, meta, h1, h2, h3⟩
            · exact hl y hy

/-- What `compact` is in terms of the merge loop: an error of the loading
loop, or the merge loop from the initial state. -/
theorem compact_cases (env : Env) (fuel : Nat) (ids : List BlockID) :
    (∃ e, compact env fuel ids = .returned (some e) []) ∨
    ((∀ x ∈ ids, Loads env x) ∧
      compact env fuel ids
        = mergeLoop env chunkSizeBytes (totalRecords env ids / outputBlocks + 1) ids fuel
            (initialState env ids)) := by
  unfold compact compactWith
  cases h : load env ids 0 [] [] with
  | error e => exact Or.inl ⟨e, rfl⟩
  | ok r =>
    obtain ⟨total, bms, metas⟩ := r
    obtain ⟨ht, hb, hl⟩ := load_ok h
    right
    refine ⟨hl, ?_⟩
    simp only [initialState]
    rw [ht, hb]
    simp

/-! ## The scan for the lowest id -/

theorem currentObject_ok {env : Env} {chunk : Nat} {b b1 : Bookmark} {id object : Bytes}
    (h : currentObject env chunk b = (b1, .ok (id, object))) :
    b1.currentID = id ∧ b1.currentObject = object := by
  unfold currentObject at h
  split at h
  · simp only [Prod.mk.injEq, Res.ok.injEq] at h
    obtain ⟨rfl, h1, h2⟩ := h
    exact ⟨h1, h2⟩
  · split at h
    · simp only [Prod.mk.injEq, Res.ok.injEq] at h
      obtain ⟨rfl, rfl, rfl⟩ := h
      exact ⟨rfl, rfl⟩
    · simp only [Prod.mk.injEq] at h
      cases h.2
    · simp only [Prod.mk.injEq] at h
      cases h.2

/-- The pair selected by the scan is the running pair it started with or the
cached current pair of one of the scanned bookmarks. -/
theorem findLowest_winner {env : Env} {chunk : Nat} {bs bs1 : List Bookmark}
    {lowestID lowestObject id object : Bytes}
    (h : findLowest env chunk bs lowestID lowestObject = .ok (bs1, id, object)) :
    (id = lowestID ∧ object = lowestObject) ∨
      ∃ b ∈ bs1, b.currentID = id ∧ b.currentObject = object := by
  induction bs generalizing bs1 lowestID lowestObject with
  | nil =>
    unfold findLowest at h
    simp only [Res.ok.injEq, Prod.mk.injEq] at h
    exact Or.inl ⟨h.2.1.symm, h.2.2.symm⟩
  | cons b rest ih =>
    unfold findLowest at h
    cases hc : currentObject env chunk b with
    | mk b1 r =>
      rw [hc] at h
      cases r with
      | panic => cases h
      | error e =>
        simp only at h
        by_cases he : e = .eof
        · rw [if_pos he] at h
          cases hr : findLowest env chunk rest lowestID lowestObject with
          | panic => rw [hr] at h; cases h
          | error e1 => rw [hr] at h; cases h
          | ok r1 =>
            obtain ⟨rest1, id1, object1⟩ := r1
            rw [hr] at h
            simp only [Res.ok.injEq, Prod.mk.injEq] at h
            obtain ⟨rfl, rfl, rfl⟩ := h
            rcases ih hr with hsame | ⟨w, hw, hcur⟩
            · exact Or.inl hsame
            · exact Or.inr ⟨w, List.mem_cons_of_mem _ hw, hcur⟩
        · rw [if_neg he] at h; cases h
      | ok p =>
        obtain ⟨cid, cobj⟩ := p
        obtain ⟨hcid, hcobj⟩ := currentObject_ok hc
        simp only at h
        generalize hnext :
          (if cid = lowestID then
            if cobj.length > lowestObject.length then (cid, cobj)
            else (lowestID, lowestObject)
          else if lowestID.length = 0 ∨ bytesCompare cid lowestID = -1 then (cid, cobj)
          else (lowestID, lowestObject)) = next at h
        have hcase : next = (cid, cobj) ∨ next = (lowestID, lowestObject) := by
          rw [← hnext]
          split
          · split
            · exact Or.inl rfl
            · exact Or.inr rfl
          · split
            · exact Or.inl rfl
            · exact Or.inr rfl
        cases hr : findLowest env chunk rest next.1 next.2 with
        | panic => rw [hr] at h; cases h
        | error e1 => rw [hr] at h; cases h
        | ok r1 =>
          obtain ⟨rest1, id1, object1⟩ := r1
          rw [hr] at h
          simp only [Res.ok.injEq, Prod.mk.injEq] at h
          obtain ⟨rfl, rfl, rfl⟩ := h
          rcases ih hr with ⟨h1, h2⟩ | ⟨w, hw, hcur⟩
          · rcases hcase with hn | hn
            · rw [hn] at h1 h2
              exact Or.inr ⟨b1, List.mem_cons_self _ _, by rw [hcid, h1], by rw [hcobj, h2]⟩
            · rw [hn] at h1 h2
              exact Or.inl ⟨h1, h2⟩
          · exact Or.inr ⟨w, List.mem_cons_of_mem _ hw, hcur⟩

theorem allDone_false_of_mem {bs : List Bookmark} {b : Bookmark} (hb : b ∈ bs)
    (hd : b.done = false) : allDone bs = false := by
  induction bs with
  | nil => cases hb
  | cons x rest ih =>
    unfold allDone
    rcases List.mem_cons.mp hb with rfl | hb
    · simp [hd]
    · by_cases hx : x.done = true
      · simp [hx, ih hb]
      · simp [hx]

/-- No bookmark is advanced past the record a pass writes: the bookmark whose
current pair was written still caches that pair when the pass is over, so
the loop condition `!allDone(bookmarks)` holds again. -/
theorem pass_next_not_done {env : Env} {chunk rpb : Nat} {st st1 : State}
    (h : pass env chunk rpb st = .next st1) : allDone st1.bookmarks = false := by
  rcases pass_cases env chunk rpb st with hp | ⟨e, hp⟩ | ⟨bms, id, object, hf, hid, hob, hp⟩
  · rw [hp] at h; cases h
  · rw [hp] at h; cases h
  · have hbms : st1.bookmarks = bms := by
      rcases hp with ⟨e, hp⟩ | hp
      · rw [hp] at h; cases h
      · rw [hp] at h
        rcases shipIfDone_cases env rpb bms (openRecords st ++ [(id, object)])
            (st.trace ++ opened st ++ [.appended id object])
          with ⟨-, hs⟩ | ⟨-, e, hs⟩ | ⟨-, ok, hs⟩
        · rw [hs] at h; cases h; rfl
        · rw [hs] at h; cases h
        · rw [hs] at h; cases h; rfl
    rw [hbms]
    rcases findLowest_winner hf with ⟨h1, -⟩ | ⟨w, hw, hcid, hcobj⟩
    · rw [h1] at hid; exact absurd rfl hid
    · apply allDone_false_of_mem hw
      have h1 : w.currentID.length ≠ 0 := by rw [hcid]; exact hid
      have h2 : w.currentObject.length ≠ 0 := by rw [hcobj]; exact hob
      simp [Bookmark.done, h1, h2]

/-- The merge loop returns `nil` only when the loop condition is false on
entry: it never exits after a pass. -/
theorem mergeLoop_nil {env : Env} {chunk rpb : Nat} {ids : List BlockID} {fuel : Nat}
    {st : State} {trace : List Event}
    (h : mergeLoop env chunk rpb ids fuel st = .returned none trace) :
    allDone st.bookmarks = true ∧ trace = markAll env ids st.trace := by
  induction fuel generalizing st with
  | zero =>
    unfold mergeLoop at h
    by_cases hd : allDone st.bookmarks = true
    · rw [if_pos hd] at h; cases h; exact ⟨hd, rfl⟩
    · rw [if_neg hd] at h; cases h
  | succ fuel ih =>
    unfold mergeLoop at h
    by_cases hd : allDone st.bookmarks = true
    · rw [if_pos hd] at h; cases h; exact ⟨hd, rfl⟩
    · rw [if_neg hd] at h
      cases hpass : pass env chunk rpb st with
      | next st1 =>
        rw [hpass] at h
        have := (ih h).1
        rw [pass_next_not_done hpass] at this
        cases this
      | fail e trace1 => rw [hpass] at h; cases h
      | panic trace1 => rw [hpass] at h; cases h

/-- Running the merge loop from the state reached after `n` passes. -/
theorem mergeLoop_passes {env : Env} {chunk rpb : Nat} {ids : List BlockID} {n : Nat}
    {st st1 : State} (h : passes env chunk rpb n st = some st1) (m : Nat) :
    mergeLoop env chunk rpb ids (n + m) st = mergeLoop env chunk rpb ids m st1 := by
  induction n generalizing st with
  | zero =>
    unfold passes at h
    cases h
    simp
  | succ n ih =>
    unfold passes at h
    by_cases hd : allDone st.bookmarks = true
    · rw [if_pos hd] at h; cases h
    · rw [if_neg hd] at h
      have hfuel : n + 1 + m = (n + m) + 1 := by omega
      rw [hfuel]
      conv_lhs => unfold mergeLoop
      rw [if_neg hd]
      cases hpass : pass env chunk rpb st with
      | next st2 =>
        rw [hpass] at h
        exact ih h
      | fail e trace1 => rw [hpass] at h; cases h
      | panic trace1 => rw [hpass] at h; cases h

theorem load_loads {env : Env} {ids : List BlockID} (h : ∀ x ∈ ids, Loads env x)
    (total : Nat) (bms : List Bookmark) (metas : List BlockMeta) :
    ∃ r, load env ids total bms metas = .ok r := by
  induction ids generalizing total bms metas with
  | nil => exact ⟨_, rfl⟩
  | cons x rest ih =>
    obtain ⟨index, metaBytes, meta, h1, h2, h3⟩ := h x (List.mem_cons_self x rest)
    unfold load
    rw [h1]; simp only; rw [h2]; simp only; rw [h3]; simp only
    exact ih (fun y hy => h y (List.mem_cons_of_mem x hy)) _ _ _

/-- When every input block loads, `compact` is the merge loop from the
initial state with the target `totalRecords / outputBlocks + 1`. -/
theorem compact_of_loads {env : Env} {ids : List BlockID} (h : ∀ x ∈ ids, Loads env x)
    (fuel : Nat) :
    compact env fuel ids
      = mergeLoop env chunkSizeBytes (totalRecords env ids / outputBlocks + 1) ids fuel
          (initialState env ids) := by
  rcases compact_cases env fuel ids with ⟨e, he⟩ | ⟨-, hc⟩
  · obtain ⟨r, hr⟩ := load_loads h 0 [] []
    unfold compact compactWith at he
    rw [hr] at he
    obtain ⟨total, bms, metas⟩ := r
    simp only at he
    obtain ⟨ht, hb, -⟩ := load_ok hr
    unfold compact compactWith
    rw [hr]
    simp only [initialState]
    rw [ht, hb]
    simp
  · exact hc

theorem passes_marks {env : Env} {chunk rpb : Nat} {n : Nat} {st st1 : State}
    (h : passes env chunk rpb n st = some st1) : markedIDs st1.trace = markedIDs st.trace := by
  induction n generalizing st with
  | zero =>
    unfold passes at h
    cases h
    rfl
  | succ n ih =>
    unfold passes at h
    by_cases hd : allDone st.bookmarks = true
    · rw [if_pos hd] at h; cases h
    · rw [if_neg hd] at h
      obtain ⟨added, hp, hm, -⟩ := pass_trace env chunk rpb st
      cases hpass : pass env chunk rpb st with
      | next st2 =>
        rw [hpass] at h hp
        simp only [PassResult.trace] at hp
        rw [ih h, hp, markedIDs_append, hm, List.append_nil]
      | fail e trace1 => rw [hpass] at h; cases h
      | panic trace1 => rw [hpass] at h; cases h

/-- The scan stops at the first bookmark whose `currentObject` call returns
an error other than `io.EOF`, and returns that error. -/
theorem findLowest_error {env : Env} {chunk : Nat} {pre : List Bookmark} {b : Bookmark}
    {post : List Bookmark} {e : Err} (hpre : ∀ x ∈ pre, Yields env chunk x)
    (hb : (currentObject env chunk b).2 = .error e) (hne : e ≠ .eof)
    (lowestID lowestObject : Bytes) :
    findLowest env chunk (pre ++ b :: post) lowestID lowestObject = .error e := by
  induction pre generalizing lowestID lowestObject with
  | nil =>
    simp only [List.nil_append]
    unfold findLowest
    cases hc : currentObject env chunk b with
    | mk b1 r =>
      rw [hc] at hb
      simp only at hb
      subst hb
      simp only [if_neg hne]
  | cons x rest ih =>
    have hrest : ∀ y ∈ rest, Yields env chunk y :=
      fun y hy => hpre y (List.mem_cons_of_mem x hy)
    simp only [List.cons_append]
    unfold findLowest
    cases hc : currentObject env chunk x with
    | mk x1 r =>
      rcases hpre x (List.mem_cons_self x rest) with ⟨p, hp⟩ | hp
      · rw [hc] at hp
        simp only at hp
        subst hp
        simp only
        rw [ih hrest]
      · rw [hc] at hp
        simp only at hp
        subst hp
        simp only [if_true]
        rw [ih hrest]

theorem allDone_initial_false {env : Env} {pre : List BlockID} {id : BlockID}
    {post : List BlockID} (h : (freshBookmark env id).index ≠ []) :
    allDone (initialState env (pre ++ id :: post)).bookmarks = false := by
  apply allDone_false_of_mem (b := freshBookmark env id)
  · simp [initialState]
  · have : (freshBookmark env id).index.length ≠ 0 := by
      intro h0
      exact h (List.length_eq_zero.mp h0)
    simp [Bookmark.done, this]

/-! ## Properties of `compact` -/

/-- C1: the ids shipped by `compact` are not strictly ascending.  On one
input block holding `(1, "x")`, `(2, "y")` the first block written to the
backend holds the id 1 twice, and after four passes two such blocks have
been shipped: id 1 repeats inside a block and across blocks, and id 2 has
not been written. -/
theorem compact_repeats_lowest_id :
    shippedBlocks (compact envTwoRecords 2 [0]).trace = [[([1], [120]), ([1], [120])]] ∧
    shippedBlocks (compact envTwoRecords 4 [0]).trace
      = [[([1], [120]), ([1], [120])], [([1], [120]), ([1], [120])]] ∧
    (compact envTwoRecords 4 [0]).isRunning = true := by
  refine ⟨by decide!, by decide!, by decide!⟩

/-- C2: on `A = [(1,"x"),(3,"y")]`, `B = [(2,"z"),(3,"yy")]` the target is
three records, and after six passes `compact` has shipped two blocks that
each hold `(1,"x")` three times; the pair `(3,"yy")` has not been written
and the loop is still running. -/
theorem compact_tie_example :
    shippedBlocks (compact envTie 6 [0, 1]).trace
      = [[([1], [120]), ([1], [120]), ([1], [120])],
         [([1], [120]), ([1], [120]), ([1], [120])]] ∧
    (compact envTie 6 [0, 1]).isRunning = true := by
  refine ⟨by decide!, by decide!⟩

/-- C3: on `A` = ids 1, 2, 3, 4 and `B` empty, `compact` returns `nil` for
no number of passes, and after six passes the shipped blocks are two blocks
holding id 1 three times each, not `{1,2,3}` and `{4}`. -/
theorem compact_coverage_example :
    (∀ fuel trace, compact envCoverage fuel [0, 1] ≠ .returned none trace) ∧
    shippedBlocks (compact envCoverage 6 [0, 1]).trace
      = [[([1], [97]), ([1], [97]), ([1], [97])],
         [([1], [97]), ([1], [97]), ([1], [97])]] := by
  refine ⟨?_, by decide!⟩
  intro fuel trace h
  have hl : ∀ x ∈ [0, 1], Loads envCoverage x := by
    intro x hx
    simp only [List.mem_cons, List.mem_singleton, List.not_mem_nil, or_false] at hx
    rcases hx with rfl | rfl
    · exact ⟨_, _, _, rfl, rfl, rfl⟩
    · exact ⟨_, _, _, rfl, rfl, rfl⟩
  rw [compact_of_loads hl] at h
  have hd := (mergeLoop_nil h).1
  revert hd
  decide!

/-- C4: on one input block holding `(1,"x")`, `(2,"y")` the target is
`2 / 2 + 1 = 2` records, and after six passes `compact` has written three
output blocks, more than `outputBlocks`, and is still running. -/
theorem compact_ships_three_blocks :
    totalRecords envTwoRecords [0] = 2 ∧
    shippedBlocks (compact envTwoRecords 6 [0]).trace
      = [[([1], [120]), ([1], [120])], [([1], [120]), ([1], [120])],
         [([1], [120]), ([1], [120])]] ∧
    outputBlocks < (shippedBlocks (compact envTwoRecords 6 [0]).trace).length ∧
    (compact envTwoRecords 6 [0]).isRunning = true := by
  refine ⟨by decide!, by decide!, by decide!, by decide!⟩

/-- C5 fails as stated: with one input record (`R = 1`, no duplicate ids)
`compact` has shipped one block after one pass and four blocks after four
passes, so the number of blocks it produces is not `outputBlocks`. -/
theorem compact_block_count_not_fixed :
    totalRecords envOneRecord [0] = 1 ∧
    (shippedBlocks (compact envOneRecord 1 [0]).trace).length = 1 ∧
    (shippedBlocks (compact envOneRecord 4 [0]).trace).length = 4 ∧
    outputBlocks = 2 := by
  refine ⟨by decide!, by decide!, by decide!, by decide!⟩

/-- C5, amended: with `R` the sum of the input record counts, every output
block that `compact` writes to the backend holds exactly
`R / outputBlocks + 1` records, the target. -/
theorem compact_shipped_length (env : Env) (fuel : Nat) (ids : List BlockID)
    (blk : List Pair) (h : blk ∈ shippedBlocks (compact env fuel ids).trace) :
    blk.length = totalRecords env ids / outputBlocks + 1 := by
  rcases compact_cases env fuel ids with ⟨e, he⟩ | ⟨-, hc⟩
  · rw [he] at h
    simp [Outcome.trace, shippedBlocks] at h
  · rw [hc] at h
    refine mergeLoop_shipped_length (Nat.succ_pos _) fuel (initialState env ids) ?_ ?_ blk h
    · intro b hb
      simp [initialState, shippedBlocks] at hb
    · simp [initialState, openRecords]

/-- Witness of C5, amended: the block shipped on the one-record input holds
`1 / 2 + 1 = 1` record. -/
theorem compact_shipped_length_witness :
    [([1], [120])] ∈ shippedBlocks (compact envOneRecord 2 [0]).trace ∧
    ([([1], [120])] : List Pair).length = totalRecords envOneRecord [0] / outputBlocks + 1 :=
  ⟨by decide!, compact_shipped_length envOneRecord 2 [0] _ (by decide)⟩

/-- C6: if loading reaches an input block whose index read, metadata read or
metadata JSON decoding fails with `e`, `compact` returns `e` and has
performed no effect: no working block allocated, nothing written to the
backend, no input marked compacted. -/
theorem compact_load_error (env : Env) (fuel : Nat) (pre : List BlockID) (id : BlockID)
    (post : List BlockID) (e : Err) (hpre : ∀ x ∈ pre, Loads env x)
    (hfail : LoadFails env id e) :
    compact env fuel (pre ++ id :: post) = .returned (some e) [] := by
  unfold compact compactWith
  rw [load_fails hpre hfail]

/-- Witness of C6: block 0 loads, the index read of block 7 fails, and the
run returns that error with an empty trace. -/
theorem compact_load_error_witness :
    (∀ x ∈ [0], Loads envOneRecord x) ∧ LoadFails envOneRecord 7 (.other 3) ∧
    compact envOneRecord 5 ([0] ++ 7 :: [0]) = .returned (some (.other 3)) [] :=
  have hpre : ∀ x ∈ [0], Loads envOneRecord x := by
    intro x hx
    simp only [List.mem_singleton] at hx
    subst hx
    exact ⟨_, _, _, rfl, rfl, rfl⟩
  have hfail : LoadFails envOneRecord 7 (.other 3) := Or.inl rfl
  ⟨hpre, hfail, compact_load_error envOneRecord 5 [0] 7 [0] (.other 3) hpre hfail⟩

/-- C7: when `compact` returns a non-nil error, no input block has been
marked compacted, and everything done up to any earlier point of the run is
still in place: the final trace extends the trace of every state the merge
loop passed through, so the blocks shipped by then are still shipped. -/
theorem compact_error_marks_nothing (env : Env) (fuel : Nat) (ids : List BlockID) (e : Err)
    (trace : List Event) (h : compact env fuel ids = .returned (some e) trace) :
    markedIDs trace = [] ∧
    ∀ n st, compact env n ids = .running st →
      ∃ later, trace = st.trace ++ later ∧
        shippedBlocks trace = shippedBlocks st.trace ++ shippedBlocks later := by
  have key : (∀ x ∈ ids, Loads env x) →
      mergeLoop env chunkSizeBytes (totalRecords env ids / outputBlocks + 1) ids fuel
        (initialState env ids) = .returned (some e) trace := by
    intro hl
    rw [← compact_of_loads hl fuel]
    exact h
  constructor
  · rcases compact_cases env fuel ids with ⟨e1, he⟩ | ⟨hl, -⟩
    · rw [he] at h
      cases h
      rfl
    · have hm := mergeLoop_error_marks (key hl)
      simpa [initialState, markedIDs] using hm
  · intro n st hn
    rcases compact_cases env n ids with ⟨e1, he⟩ | ⟨hl, hc⟩
    · rw [he] at hn
      cases hn
    · rw [hc] at hn
      obtain ⟨later, hlater⟩ := mergeLoop_error_extends (key hl) hn
      exact ⟨later, hlater, by rw [hlater, shippedBlocks_append]⟩

/-- Witness of C7: the second `Write` fails; the run returns the error, the
first block stays shipped and no input is marked. -/
theorem compact_error_marks_nothing_witness :
    compact envSecondShipFails 2 [0]
      = .returned (some (.other 9))
          [.allocated, .appended [1] [120], .shipped [([1], [120])], .cleared true,
           .allocated, .appended [1] [120]] ∧
    (markedIDs [.allocated, .appended [1] [120], .shipped [([1], [120])], .cleared true,
                .allocated, .appended [1] [120]] = [] ∧
     ∀ n st, compact envSecondShipFails n [0] = .running st →
       ∃ later,
         [.allocated, .appended [1] [120], .shipped [([1], [120])], .cleared true,
          .allocated, .appended [1] [120]] = st.trace ++ later ∧
         shippedBlocks [.allocated, .appended [1] [120], .shipped [([1], [120])],
                        .cleared true, .allocated, .appended [1] [120]]
           = shippedBlocks st.trace ++ shippedBlocks later) :=
  ⟨by decide!,
   compact_error_marks_nothing envSecondShipFails 2 [0] (.other 9) _ (by decide!)⟩

/-- C9: block 0 holds a frame cut off after its length bytes, for which the
decoder reports `io.EOF` on a non-empty buffer, and block 1 holds
`(2,"z")`.  `compact` does not abort: the first pass skips block 0 as if
its stream had ended and writes `(2,"z")`, and after two passes a block
holding that record has been shipped. -/
theorem compact_skips_decoder_eof :
    envTruncated.Object 0 0 chunkSizeBytes = .ok [1, 1] ∧
    envTruncated.UnmarshalObjectFromReader [1, 1] = .error .eof ∧
    (compact envTruncated 1 [0, 1]).trace = [.allocated, .appended [2] [122]] ∧
    (compact envTruncated 1 [0, 1]).isRunning = true ∧
    shippedBlocks (compact envTruncated 2 [0, 1]).trace = [[([2], [122]), ([2], [122])]] := by
  refine ⟨by rfl, by rfl, by decide!, by decide!, by decide!⟩

/-- A decode error met in the first pass is returned before anything is
written: if the first chunk read of an input block succeeds and decoding
its buffer fails with an error other than `io.EOF`, and every input block
before it yields its first pair or end-of-stream, `compact` returns that
error with an empty trace of effects. -/
theorem compact_first_frame_corrupt (env : Env) (fuel : Nat) (pre : List BlockID)
    (id : BlockID) (post : List BlockID) (index : List Record) (start length : Nat)
    (objects : Bytes) (e : Err)
    (hload : ∀ x ∈ pre ++ id :: post, Loads env x)
    (hpre : ∀ x ∈ pre, Yields env chunkSizeBytes (freshBookmark env x))
    (hchunk : fillChunk chunkSizeBytes (freshBookmark env id).index MaxUint64 0
      = some (index, start, length))
    (hread : env.Object id start length = .ok objects)
    (hdecode : env.UnmarshalObjectFromReader objects = .error e)
    (hne : e ≠ .eof) :
    compact env (fuel + 1) (pre ++ id :: post) = .returned (some e) [] := by
  have hindex : (freshBookmark env id).index ≠ [] := by
    intro h0
    rw [h0] at hchunk
    simp [fillChunk, chunkSizeBytes] at hchunk
  have hlen : ¬ (freshBookmark env id).index.length = 0 := by
    intro h0
    exact hindex (List.length_eq_zero.mp h0)
  have hcur : (currentObject env chunkSizeBytes (freshBookmark env id)).2 = .error e := by
    have hobj : (freshBookmark env id).objects = [] := rfl
    have hcid : (freshBookmark env id).currentID = [] := rfl
    have hbid : (freshBookmark env id).id = id := rfl
    unfold currentObject
    rw [hcid]
    simp only [List.length_nil, ne_eq, not_true_eq_false, false_and, if_false]
    unfold nextObject
    rw [hobj]
    simp only [List.length_nil, if_true, if_neg hlen]
    rw [hchunk]
    simp only [hbid, hread]
    unfold decodeNext
    simp only [hdecode]
  have hscan : findLowest env chunkSizeBytes (initialState env (pre ++ id :: post)).bookmarks
      [] [] = .error e := by
    simp only [initialState, List.map_append, List.map_cons]
    apply findLowest_error _ hcur hne
    intro x hx
    obtain ⟨y, hy, rfl⟩ := List.mem_map.mp hx
    exact hpre y hy
  rw [compact_of_loads hload]
  unfold mergeLoop
  rw [allDone_initial_false hindex]
  simp only [Bool.false_eq_true, if_false]
  unfold pass
  rw [hscan]
  simp [initialState]

/-- Sample run of the lemma above: block 1 starts with a corrupt frame; the
run returns the decode error with an empty trace. -/
theorem compact_first_frame_corrupt_witness :
    envCorruptFirst.UnmarshalObjectFromReader [1] = .error (.other 1) ∧
    compact envCorruptFirst (4 + 1) ([0] ++ 1 :: []) = .returned (some (.other 1)) [] :=
  have hload : ∀ x ∈ [0] ++ 1 :: [], Loads envCorruptFirst x := by
    intro x hx
    simp only [List.singleton_append, List.mem_cons, List.mem_singleton, List.not_mem_nil,
      or_false] at hx
    rcases hx with rfl | rfl
    · exact ⟨_, _, _, rfl, rfl, rfl⟩
    · exact ⟨_, _, _, rfl, rfl, rfl⟩
  have hpre : ∀ x ∈ [0], Yields envCorruptFirst chunkSizeBytes (freshBookmark envCorruptFirst x) := by
    intro x hx
    simp only [List.mem_singleton] at hx
    subst hx
    exact Or.inl ⟨([1], [120]), by decide!⟩
  ⟨rfl,
   compact_first_frame_corrupt envCorruptFirst 4 [0] 1 [] [] 0 chunkSizeBytes [1] (.other 1)
     hload hpre (by decide!) rfl rfl (by decide)⟩

/-! ## Passes of the merge loop in detail -/

theorem allocations_append (a b : List Event) :
    allocations (a ++ b) = allocations a + allocations b := by
  induction a with
  | nil => simp [allocations]
  | cons ev rest ih =>
    cases ev <;> simp [allocations, ih]
    omega

/-- A completed pass wrote one pair to the open block (allocated in this
pass if none was open) and either kept the block open, below the target, or
shipped and cleared it. -/
theorem pass_next_cases {env : Env} {chunk rpb : Nat} {st st1 : State}
    (h : pass env chunk rpb st = .next st1) :
    ∃ bms id object, findLowest env chunk st.bookmarks [] [] = .ok (bms, id, object) ∧
      id.length ≠ 0 ∧ object.length ≠ 0 ∧
      (((openRecords st ++ [(id, object)]).length < rpb ∧
          st1 = { bookmarks := bms, currentBlock := some (openRecords st ++ [(id, object)]),
                  trace := st.trace ++ opened st ++ [.appended id object] }) ∨
        (rpb ≤ (openRecords st ++ [(id, object)]).length ∧ ∃ ok,
          st1 = { bookmarks := bms, currentBlock := none,
                  trace := st.trace ++ opened st ++ [.appended id object]
                    ++ [.shipped (openRecords st ++ [(id, object)])] ++ [.cleared ok] })) := by
  rcases pass_cases env chunk rpb st with hp | ⟨e, hp⟩ | ⟨bms, id, object, hf, hid, hob, hp⟩
  · rw [hp] at h; cases h
  · rw [hp] at h; cases h
  · refine ⟨bms, id, object, hf, hid, hob, ?_⟩
    rcases hp with ⟨e, hp⟩ | hp
    · rw [hp] at h; cases h
    · rw [hp] at h
      rcases shipIfDone_cases env rpb bms (openRecords st ++ [(id, object)])
          (st.trace ++ opened st ++ [.appended id object])
        with ⟨hlen, hs⟩ | ⟨-, e, hs⟩ | ⟨hlen, ok, hs⟩
      · rw [hs] at h
        cases h
        exact Or.inl ⟨hlen, rfl⟩
      · rw [hs] at h; cases h
      · rw [hs] at h
        cases h
        exact Or.inr ⟨hlen, ok, rfl⟩

theorem allocations_opened (st : State) : allocations (opened st) + openCount st = 1 := by
  unfold opened openCount
  cases st.currentBlock <;> rfl

theorem openRecords_length {rpb : Nat} {st : State} (hpos : 0 < rpb) (h : BlockInv rpb st) :
    (openRecords st).length < rpb := by
  unfold openRecords
  cases hcb : st.currentBlock with
  | some blk => exact (h.1 blk hcb).2
  | none => exact hpos

/-- A completed pass keeps the accumulator invariant. -/
theorem pass_blockInv {env : Env} {chunk rpb : Nat} {st st1 : State} (hpos : 0 < rpb)
    (hinv : BlockInv rpb st) (h : pass env chunk rpb st = .next st1) : BlockInv rpb st1 := by
  have hopen := openRecords_length hpos hinv
  have halloc := allocations_opened st
  obtain ⟨-, hship, hcount⟩ := hinv
  obtain ⟨bms, id, object, -, -, -, hcase⟩ := pass_next_cases h
  rcases hcase with ⟨hlen, rfl⟩ | ⟨hlen, ok, rfl⟩
  · refine ⟨?_, ?_, ?_⟩
    · intro blk hb
      simp only [Option.some.injEq] at hb
      subst hb
      simp only [List.length_append, List.length_singleton] at hlen ⊢
      omega
    · simp only [shippedBlocks_append, shippedBlocks_opened, shippedBlocks, List.append_nil]
      exact hship
    · simp only [shippedBlocks_append, shippedBlocks_opened, shippedBlocks, List.append_nil,
        allocations_append, allocations, openCount]
      omega
  · refine ⟨?_, ?_, ?_⟩
    · intro blk hb
      cases hb
    · simp only [shippedBlocks_append, shippedBlocks_opened, shippedBlocks, List.append_nil]
      intro blk hb
      rcases List.mem_append.mp hb with hb | hb
      · exact hship blk hb
      · simp only [List.mem_singleton] at hb
        subst hb
        simp only [List.length_append, List.length_singleton] at hlen ⊢
        omega
    · simp only [shippedBlocks_append, shippedBlocks_opened, shippedBlocks, List.append_nil,
        allocations_append, allocations, openCount, List.length_append, List.length_singleton]
      omega

theorem passes_blockInv {env : Env} {chunk rpb : Nat} {n : Nat} {st st1 : State}
    (hpos : 0 < rpb) (hinv : BlockInv rpb st) (h : passes env chunk rpb n st = some st1) :
    BlockInv rpb st1 := by
  induction n generalizing st with
  | zero =>
    unfold passes at h
    cases h
    exact hinv
  | succ n ih =>
    unfold passes at h
    by_cases hd : allDone st.bookmarks = true
    · rw [if_pos hd] at h; cases h
    · rw [if_neg hd] at h
      cases hpass : pass env chunk rpb st with
      | next st2 =>
        rw [hpass] at h
        exact ih (pass_blockInv hpos hinv hpass) h
      | fail e trace1 => rw [hpass] at h; cases h
      | panic trace1 => rw [hpass] at h; cases h

theorem initialState_blockInv (env : Env) (ids : List BlockID) (rpb : Nat) :
    BlockInv rpb (initialState env ids) := by
  refine ⟨?_, ?_, ?_⟩
  · intro blk hb
    cases hb
  · intro blk hb
    simp [initialState, shippedBlocks] at hb
  · simp [initialState, shippedBlocks, allocations, openCount]

/-- A scan in which every bookmark reports `io.EOF` selects nothing. -/
theorem findLowest_all_eof {env : Env} {chunk : Nat} {bs : List Bookmark}
    (h : ∀ b ∈ bs, (currentObject env chunk b).2 = .error .eof)
    (lowestID lowestObject : Bytes) :
    ∃ bs1, findLowest env chunk bs lowestID lowestObject
      = .ok (bs1, lowestID, lowestObject) := by
  induction bs with
  | nil => exact ⟨[], rfl⟩
  | cons b rest ih =>
    obtain ⟨rest1, hrest⟩ := ih (fun x hx => h x (List.mem_cons_of_mem b hx))
    have hb := h b (List.mem_cons_self b rest)
    unfold findLowest
    cases hc : currentObject env chunk b with
    | mk b1 r =>
      rw [hc] at hb
      simp only at hb
      subst hb
      simp only [if_true]
      rw [hrest]
      exact ⟨b1 :: rest1, rfl⟩

/-- C16: in a pass entered with not all bookmarks done in which every
`currentObject` call returns `io.EOF`, the pass fails with `failed to find
a lowest object in compaction` and `compact` returns that error with the
trace as it was when the pass began: no working block allocated, no record
written, no block shipped in that pass. -/
theorem compact_no_candidate (env : Env) (ids : List BlockID) (n fuel : Nat) (st : State)
    (hload : ∀ x ∈ ids, Loads env x)
    (hn : passes env chunkSizeBytes (totalRecords env ids / outputBlocks + 1) n
      (initialState env ids) = some st)
    (hnd : allDone st.bookmarks = false)
    (heof : ∀ b ∈ st.bookmarks, (currentObject env chunkSizeBytes b).2 = .error .eof) :
    pass env chunkSizeBytes (totalRecords env ids / outputBlocks + 1) st
      = .fail .noLowest st.trace ∧
    compact env (n + (fuel + 1)) ids = .returned (some .noLowest) st.trace := by
  have hpass : pass env chunkSizeBytes (totalRecords env ids / outputBlocks + 1) st
      = .fail .noLowest st.trace := by
    obtain ⟨bs1, hscan⟩ := findLowest_all_eof heof [] []
    unfold pass
    rw [hscan]
    simp
  refine ⟨hpass, ?_⟩
  rw [compact_of_loads hload, mergeLoop_passes hn (fuel + 1)]
  unfold mergeLoop
  rw [hnd]
  simp only [Bool.false_eq_true, if_false]
  rw [hpass]

/-- Witness of C16: the only block holds a frame for which the decoder
reports `io.EOF`; the first pass finds no candidate and the run returns the
error with an empty trace. -/
theorem compact_no_candidate_witness :
    allDone (initialState envTruncatedOnly [0]).bookmarks = false ∧
    pass envTruncatedOnly chunkSizeBytes (totalRecords envTruncatedOnly [0] / outputBlocks + 1)
        (initialState envTruncatedOnly [0])
      = .fail .noLowest (initialState envTruncatedOnly [0]).trace ∧
    compact envTruncatedOnly (0 + (2 + 1)) [0]
      = .returned (some .noLowest) (initialState envTruncatedOnly [0]).trace :=
  have hload : ∀ x ∈ [0], Loads envTruncatedOnly x := by
    intro x hx
    simp only [List.mem_singleton] at hx
    subst hx
    exact ⟨_, _, _, rfl, rfl, rfl⟩
  have heof : ∀ b ∈ (initialState envTruncatedOnly [0]).bookmarks,
      (currentObject envTruncatedOnly chunkSizeBytes b).2 = .error .eof := by
    intro b hb
    have hb1 : b = freshBookmark envTruncatedOnly 0 := by
      simpa [initialState] using hb
    subst hb1
    decide!
  ⟨by decide!,
   compact_no_candidate envTruncatedOnly [0] 0 2 (initialState envTruncatedOnly [0])
     hload rfl (by decide!) heof⟩

/-- C17: at the end of every pass of the merge loop, with
`recordsPerBlock = totalRecords / outputBlocks + 1`: an open accumulator
holds at least 1 and fewer than `recordsPerBlock` records; every block
written to the backend holds exactly `recordsPerBlock` records; every
allocated block is shipped or is the one open block, so at most one is
open; and the next pass either keeps the block open below the target or,
when its write brings the count to the target, ships the block and clears
the reference. -/
theorem compact_accumulator_invariant (env : Env) (ids : List BlockID) (n : Nat) (st : State)
    (hn : passes env chunkSizeBytes (totalRecords env ids / outputBlocks + 1) n
      (initialState env ids) = some st) :
    (∀ blk, st.currentBlock = some blk →
      1 ≤ blk.length ∧ blk.length < totalRecords env ids / outputBlocks + 1) ∧
    (∀ blk ∈ shippedBlocks st.trace,
      blk.length = totalRecords env ids / outputBlocks + 1) ∧
    allocations st.trace = (shippedBlocks st.trace).length + openCount st ∧
    openCount st ≤ 1 ∧
    (∀ st1, pass env chunkSizeBytes (totalRecords env ids / outputBlocks + 1) st = .next st1 →
      ∃ p,
        ((openRecords st).length + 1 < totalRecords env ids / outputBlocks + 1 ∧
          st1.currentBlock = some (openRecords st ++ [p]) ∧
          shippedBlocks st1.trace = shippedBlocks st.trace) ∨
        ((openRecords st).length + 1 = totalRecords env ids / outputBlocks + 1 ∧
          st1.currentBlock = none ∧
          shippedBlocks st1.trace = shippedBlocks st.trace ++ [openRecords st ++ [p]])) := by
  have hpos : 0 < totalRecords env ids / outputBlocks + 1 := Nat.succ_pos _
  have hinv := passes_blockInv hpos (initialState_blockInv env ids _) hn
  have hopen := openRecords_length hpos hinv
  refine ⟨hinv.1, hinv.2.1, hinv.2.2, ?_, ?_⟩
  · unfold openCount
    cases st.currentBlock <;> simp
  · intro st1 hpass
    obtain ⟨bms, id, object, -, -, -, hcase⟩ := pass_next_cases hpass
    refine ⟨(id, object), ?_⟩
    rcases hcase with ⟨hlen, rfl⟩ | ⟨hlen, ok, rfl⟩
    · left
      simp only [List.length_append, List.length_singleton] at hlen
      refine ⟨hlen, rfl, ?_⟩
      simp [shippedBlocks_append, shippedBlocks_opened, shippedBlocks]
    · right
      simp only [List.length_append, List.length_singleton] at hlen
      refine ⟨by omega, rfl, ?_⟩
      simp [shippedBlocks_append, shippedBlocks_opened, shippedBlocks]

/-- Witness of C17: the state after three passes over one block holding
`(1,"x")`, `(2,"y")`: one block of two records shipped, one record in the
open block. -/
theorem compact_accumulator_invariant_witness :
    shippedBlocks (compact envTwoRecords 3 [0]).trace = [[([1], [120]), ([1], [120])]] ∧
    ∀ blk ∈ shippedBlocks
        ({ bookmarks := [{ id := 0,
                           index := [{ ID := [2], Start := 10485760, Length := 10485760 }],
                           objects := [], currentID := [1], currentObject := [120] }],
           currentBlock := some [([1], [120])],
           trace := [.allocated, .appended [1] [120], .appended [1] [120],
                     .shipped [([1], [120]), ([1], [120])], .cleared true,
                     .allocated, .appended [1] [120]] } : State).trace,
      blk.length = totalRecords envTwoRecords [0] / outputBlocks + 1 :=
  ⟨by decide!,
   (compact_accumulator_invariant envTwoRecords [0] 3 _ (by decide!)).2.1⟩

/-! ## The chunk-fill loop -/

theorem accLength_le (rs : List Record) (length : Nat) :
    accLength rs length ≤ length + sumLength rs := by
  induction rs generalizing length with
  | nil => simp [accLength, sumLength]
  | cons rec rest ih =>
    have h1 := ih ((length + rec.Length) % 2 ^ 32)
    have h2 : (length + rec.Length) % 2 ^ 32 ≤ length + rec.Length := Nat.mod_le _ _
    simp only [accLength, sumLength]
    omega

theorem accLength_eq (rs : List Record) (length : Nat) (h : length + sumLength rs < 2 ^ 32) :
    accLength rs length = length + sumLength rs := by
  induction rs generalizing length with
  | nil => simp [accLength, sumLength]
  | cons rec rest ih =>
    simp only [sumLength] at h
    have hmod : (length + rec.Length) % 2 ^ 32 = length + rec.Length :=
      Nat.mod_eq_of_lt (by omega)
    simp only [accLength, sumLength, hmod]
    rw [ih (length + rec.Length) (by omega)]
    omega

theorem accStart_fixed (rs : List Record) (start : Nat) (h : start ≠ MaxUint64) :
    accStart rs start = start := by
  induction rs with
  | nil => rfl
  | cons rec rest ih => simp only [accStart, if_neg h, ih]

/-- When the remaining records have a total length below the threshold, the
chunk-fill loop is still running when the index is exhausted and takes a
record from the exhausted index. -/
theorem fillChunk_short (chunk : Nat) (index : List Record) (start length : Nat)
    (h : length + sumLength index < chunk) : fillChunk chunk index start length = none := by
  induction index generalizing start length with
  | nil =>
    simp only [sumLength] at h
    simp only [fillChunk]
    rw [if_pos (by omega)]
  | cons rec rest ih =>
    simp only [sumLength] at h
    have h2 : (length + rec.Length) % 2 ^ 32 ≤ length + rec.Length := Nat.mod_le _ _
    simp only [fillChunk]
    rw [if_pos (by omega)]
    exact ih _ _ (by omega)

/-- When the chunk-fill loop exits, it has consumed a front part of the
index, the accumulator was below the threshold before each consumed record
and has reached it after the last. -/
theorem fillChunk_some {chunk : Nat} {index rest : List Record} {start length start1 length1 : Nat}
    (h : fillChunk chunk index start length = some (rest, start1, length1)) :
    ∃ consumed, index = consumed ++ rest ∧ length1 = accLength consumed length ∧
      start1 = accStart consumed start ∧ chunk ≤ length1 ∧
      ∀ k, k < consumed.length → accLength (consumed.take k) length < chunk := by
  induction index generalizing start length with
  | nil =>
    simp only [fillChunk] at h
    split at h
    · cases h
    · rename_i hlt
      simp only [Option.some.injEq, Prod.mk.injEq] at h
      obtain ⟨rfl, rfl, rfl⟩ := h
      exact ⟨[], rfl, rfl, rfl, Nat.le_of_not_lt hlt, fun k hk => absurd hk (Nat.not_lt_zero k)⟩
  | cons rec tail ih =>
    simp only [fillChunk] at h
    split at h
    · rename_i hlt
      obtain ⟨consumed, h1, h2, h3, h4, h5⟩ := ih h
      refine ⟨rec :: consumed, by rw [h1]; rfl, h2, h3, h4, ?_⟩
      intro k hk
      cases k with
      | zero => simpa [accLength] using hlt
      | succ k =>
        simp only [List.take_succ_cons, accLength]
        exact h5 k (by simpa using hk)
    · rename_i hlt
      simp only [Option.some.injEq, Prod.mk.injEq] at h
      obtain ⟨rfl, rfl, rfl⟩ := h
      exact ⟨[], rfl, rfl, rfl, Nat.le_of_not_lt hlt, fun k hk => absurd hk (Nat.not_lt_zero k)⟩

/-- C13 fails as stated.  With record lengths 5, `2 ^ 32 - 1` and
`chunkSizeBytes` the 32-bit accumulator wraps: all three records are
consumed and the read is issued with length `4 + chunkSizeBytes`, while the
sum of the consumed `Length` fields is `5 + (2 ^ 32 - 1) + chunkSizeBytes`.
With a first record at offset `MaxUint64` the read starts at the `Start`
of the second record. -/
theorem nextObject_length_wraps :
    fillChunk chunkSizeBytes wrappingIndex MaxUint64 0 = some ([], 0, 10485764) ∧
    sumLength wrappingIndex = 4305453060 ∧
    (nextObject requestEnv chunkSizeBytes
      { id := 0, index := wrappingIndex, objects := [], currentID := [],
        currentObject := [] }).2 = .error (.other 10485764) ∧
    fillChunk chunkSizeBytes sentinelIndex MaxUint64 0 = some ([], 7, 10485765) := by
  refine ⟨by decide!, by decide!, by decide!, by decide!⟩

/-- C13, amended: for a bookmark with an empty buffer on which the
chunk-fill loop exits, `nextObject` consumes a non-empty front part of the
index, record by record while the accumulator is below the threshold, and
then issues the one `Object` read of the call with the accumulated `start`
and `length`: `length` is the sum of the consumed `Length` fields with
every addition wrapping at `2 ^ 32` (the arithmetic sum when that is below
`2 ^ 32`) and has reached the threshold, and `start` is the `Start` of the
first consumed record unless that is the sentinel `MaxUint64`. -/
theorem nextObject_chunk_read (env : Env) (chunk : Nat) (b : Bookmark) (rest : List Record)
    (start length : Nat) (hobj : b.objects = []) (hpos : 0 < chunk)
    (hfill : fillChunk chunk b.index MaxUint64 0 = some (rest, start, length)) :
    ∃ first more, b.index = (first :: more) ++ rest ∧
      (∀ k, k < (first :: more).length → accLength ((first :: more).take k) 0 < chunk) ∧
      chunk ≤ length ∧ length = accLength (first :: more) 0 ∧
      (sumLength (first :: more) < 2 ^ 32 → length = sumLength (first :: more)) ∧
      start = accStart (first :: more) MaxUint64 ∧
      (first.Start ≠ MaxUint64 → start = first.Start) ∧
      nextObject env chunk b
        = (match env.Object b.id start length with
           | .error e => ({ b with index := rest, objects := [] }, .error e)
           | .ok objects => decodeNext env { b with index := rest, objects := objects }) := by
  obtain ⟨consumed, h1, h2, h3, h4, h5⟩ := fillChunk_some hfill
  cases consumed with
  | nil =>
    simp only [accLength] at h2
    omega
  | cons first more =>
    have hidx : ¬ b.index.length = 0 := by
      rw [h1]
      simp
    refine ⟨first, more, h1, h5, h4, h2, ?_, h3, ?_, ?_⟩
    · intro hsum
      rw [h2, accLength_eq _ _ (by omega)]
      omega
    · intro hfirst
      rw [h3]
      simp only [accStart, if_true]
      exact accStart_fixed more first.Start hfirst
    · unfold nextObject
      rw [hobj]
      simp only [List.length_nil, if_true, if_neg hidx]
      rw [hfill]

/-- Witness of C13, amended: the first record of the sample block fills the
chunk, and the read is issued for `[0, 0 + chunkSizeBytes)`. -/
theorem nextObject_chunk_read_witness :
    ∃ first more, (freshBookmark envTwoRecords 0).index
        = (first :: more) ++ [{ ID := [2], Start := 10485760, Length := 10485760 }] ∧
      (∀ k, k < (first :: more).length →
        accLength ((first :: more).take k) 0 < chunkSizeBytes) ∧
      chunkSizeBytes ≤ 10485760 ∧ 10485760 = accLength (first :: more) 0 ∧
      (sumLength (first :: more) < 2 ^ 32 → 10485760 = sumLength (first :: more)) ∧
      0 = accStart (first :: more) MaxUint64 ∧
      (first.Start ≠ MaxUint64 → 0 = first.Start) ∧
      nextObject envTwoRecords chunkSizeBytes (freshBookmark envTwoRecords 0)
        = (match envTwoRecords.Object (freshBookmark envTwoRecords 0).id 0 10485760 with
           | .error e =>
             ({ freshBookmark envTwoRecords 0 with
                  index := [{ ID := [2], Start := 10485760, Length := 10485760 }],
                  objects := [] }, .error e)
           | .ok objects =>
             decodeNext envTwoRecords
               { freshBookmark envTwoRecords 0 with
                   index := [{ ID := [2], Start := 10485760, Length := 10485760 }],
                   objects := objects }) :=
  nextObject_chunk_read envTwoRecords chunkSizeBytes (freshBookmark envTwoRecords 0)
    [{ ID := [2], Start := 10485760, Length := 10485760 }] 0 10485760 rfl (by decide)
    (by decide!)

/-- C19: the chunk-fill loop does not stop when the index is exhausted.
For a bookmark with an empty buffer and a non-empty index whose records
have a total length below `chunkSizeBytes`, the loop condition still holds
after the last record, the loop takes a record from the exhausted index,
and `nextObject` panics, with the whole index consumed, without issuing a
read. -/
theorem nextObject_short_index (env : Env) (b : Bookmark) (hobj : b.objects = [])
    (hidx : b.index ≠ []) (hshort : sumLength b.index < chunkSizeBytes) :
    fillChunk chunkSizeBytes b.index MaxUint64 0 = none ∧
    nextObject env chunkSizeBytes b = ({ b with index := [] }, .panic) := by
  have hfill : fillChunk chunkSizeBytes b.index MaxUint64 0 = none :=
    fillChunk_short _ _ _ _ (by omega)
  have hlen : ¬ b.index.length = 0 := fun h0 => hidx (List.length_eq_zero.mp h0)
  refine ⟨hfill, ?_⟩
  unfold nextObject
  rw [hobj]
  simp only [List.length_nil, if_true, if_neg hlen]
  rw [hfill]

/-- Witness of C19: a block file of eight bytes holding `(1,"x")` and
`(2,"y")`; the first `nextObject` call panics, and so does `compact`. -/
theorem nextObject_short_index_witness :
    sumLength (freshBookmark envSmallBlock 0).index = 8 ∧
    compact envSmallBlock 1 [0] = .panicked [] ∧
    (fillChunk chunkSizeBytes (freshBookmark envSmallBlock 0).index MaxUint64 0 = none ∧
      nextObject envSmallBlock chunkSizeBytes (freshBookmark envSmallBlock 0)
        = ({ freshBookmark envSmallBlock 0 with index := [] }, .panic)) :=
  ⟨by decide!, by decide!,
   nextObject_short_index envSmallBlock (freshBookmark envSmallBlock 0) rfl (by decide!)
     (by decide!)⟩

/-! ## Byte-wise order -/

theorem bytesCompare_self (a : Bytes) : bytesCompare a a = 0 := by
  induction a with
  | nil => rfl
  | cons x xs ih => simp [bytesCompare, ih]

theorem bytesCompare_swap (a b : Bytes) : bytesCompare a b = 1 ↔ bytesCompare b a = -1 := by
  induction a generalizing b with
  | nil => cases b <;> simp [bytesCompare]
  | cons x xs ih =>
    cases b with
    | nil => simp [bytesCompare]
    | cons y ys =>
      simp only [bytesCompare]
      by_cases h1 : x < y
      · have h2 : ¬ y < x := by omega
        simp [h1, h2]
      · by_cases h2 : y < x
        · simp [h1, h2]
        · simp only [h1, h2, if_false]
          exact ih ys

theorem bytesCompare_trans (a b c : Bytes) (hab : bytesCompare a b = -1)
    (hbc : bytesCompare b c ≠ 1) : bytesCompare a c = -1 := by
  induction a generalizing b c with
  | nil =>
    cases b with
    | nil => simp [bytesCompare] at hab
    | cons y ys =>
      cases c with
      | nil => simp [bytesCompare] at hbc
      | cons z zs => simp [bytesCompare]
  | cons x xs ih =>
    cases b with
    | nil => simp [bytesCompare] at hab
    | cons y ys =>
      cases c with
      | nil => simp [bytesCompare] at hbc
      | cons z zs =>
        simp only [bytesCompare] at hab hbc ⊢
        by_cases hxy : x < y
        · by_cases hyz : y < z
          · have : x < z := by omega
            simp [this]
          · by_cases hzy : z < y
            · simp [hyz, hzy] at hbc
            · have : x < z := by omega
              simp [this]
        · by_cases hyx : y < x
          · simp [hxy, hyx] at hab
          · simp only [hxy, hyx, if_false] at hab
            by_cases hyz : y < z
            · have : x < z := by omega
              simp [this]
            · by_cases hzy : z < y
              · simp [hyz, hzy] at hbc
              · simp only [hyz, hzy, if_false] at hbc
                have h1 : ¬ x < z := by omega
                have h2 : ¬ z < x := by omega
                simp only [h1, h2, if_false]
                exact ih ys zs hab hbc

/-! ## The selection of a pass -/

/-- The scan selects by folding `choose` over the candidates. -/
theorem findLowest_select {env : Env} {chunk : Nat} {bs bs1 : List Bookmark}
    {lowestID lowestObject id object : Bytes}
    (h : findLowest env chunk bs lowestID lowestObject = .ok (bs1, id, object)) :
    (id, object) = (candidates env chunk bs).foldl choose (lowestID, lowestObject) := by
  induction bs generalizing bs1 lowestID lowestObject with
  | nil =>
    unfold findLowest at h
    simp only [Res.ok.injEq, Prod.mk.injEq] at h
    simp [candidates, h.2.1, h.2.2]
  | cons b rest ih =>
    unfold findLowest at h
    cases hc : currentObject env chunk b with
    | mk b1 r =>
      have hc2 : (currentObject env chunk b).2 = r := by rw [hc]
      rw [hc] at h
      cases r with
      | panic => cases h
      | error e =>
        simp only at h
        by_cases he : e = .eof
        · rw [if_pos he] at h
          cases hr : findLowest env chunk rest lowestID lowestObject with
          | panic => rw [hr] at h; cases h
          | error e1 => rw [hr] at h; cases h
          | ok r1 =>
            obtain ⟨rest1, id1, object1⟩ := r1
            rw [hr] at h
            simp only [Res.ok.injEq, Prod.mk.injEq] at h
            obtain ⟨-, rfl, rfl⟩ := h
            simp only [candidates, hc2]
            exact ih hr
        · rw [if_neg he] at h; cases h
      | ok p =>
        obtain ⟨cid, cobj⟩ := p
        simp only at h
        have hnext :
            (if cid = lowestID then
              if cobj.length > lowestObject.length then (cid, cobj)
              else (lowestID, lowestObject)
            else if lowestID.length = 0 ∨ bytesCompare cid lowestID = -1 then (cid, cobj)
            else (lowestID, lowestObject)) = choose (lowestID, lowestObject) (cid, cobj) := rfl
        rw [hnext] at h
        cases hr : findLowest env chunk rest (choose (lowestID, lowestObject) (cid, cobj)).1
            (choose (lowestID, lowestObject) (cid, cobj)).2 with
        | panic => rw [hr] at h; cases h
        | error e1 => rw [hr] at h; cases h
        | ok r1 =>
          obtain ⟨rest1, id1, object1⟩ := r1
          rw [hr] at h
          simp only [Res.ok.injEq, Prod.mk.injEq] at h
          obtain ⟨-, rfl, rfl⟩ := h
          simp only [candidates, hc2, List.foldl_cons]
          exact ih hr

/-- An error returned by the scan is the error of a `currentObject` call. -/
theorem findLowest_error_origin {env : Env} {chunk : Nat} {bs : List Bookmark}
    {lowestID lowestObject : Bytes} {e : Err}
    (h : findLowest env chunk bs lowestID lowestObject = .error e) :
    ∃ b ∈ bs, (currentObject env chunk b).2 = .error e := by
  induction bs generalizing lowestID lowestObject with
  | nil =>
    unfold findLowest at h
    cases h
  | cons b rest ih =>
    unfold findLowest at h
    cases hc : currentObject env chunk b with
    | mk b1 r =>
      have hc2 : (currentObject env chunk b).2 = r := by rw [hc]
      rw [hc] at h
      cases r with
      | panic => cases h
      | error e0 =>
        simp only at h
        by_cases he : e0 = .eof
        · rw [if_pos he] at h
          cases hr : findLowest env chunk rest lowestID lowestObject with
          | panic => rw [hr] at h; cases h
          | ok r1 => rw [hr] at h; cases h
          | error e1 =>
            rw [hr] at h
            simp only [Res.error.injEq] at h
            subst h
            obtain ⟨w, hw, hwe⟩ := ih hr
            exact ⟨w, List.mem_cons_of_mem _ hw, hwe⟩
        · rw [if_neg he] at h
          simp only [Res.error.injEq] at h
          subst h
          exact ⟨b, List.mem_cons_self _ _, hc2⟩
      | ok p =>
        simp only at h
        split at h
        · cases h
        · rename_i e1 hr
          simp only [Res.error.injEq] at h
          subst h
          obtain ⟨w, hw, hwe⟩ := ih hr
          exact ⟨w, List.mem_cons_of_mem _ hw, hwe⟩
        · cases h

/-- Folding `choose` over candidates with non-empty ids selects a candidate
whose id is byte-wise lowest, whose object is longest among the candidates
with that id, and which comes first among those of that id and length. -/
theorem foldl_choose_spec (cs : List Pair) :
    (∀ p ∈ cs, p.1.length ≠ 0) → cs ≠ [] →
    (∀ p ∈ cs, bytesCompare (cs.foldl choose ([], [])).1 p.1 ≠ 1) ∧
    (∀ p ∈ cs, p.1 = (cs.foldl choose ([], [])).1 →
      p.2.length ≤ (cs.foldl choose ([], [])).2.length) ∧
    ∃ pre post, cs = pre ++ cs.foldl choose ([], []) :: post ∧
      ∀ p ∈ pre, p.1 = (cs.foldl choose ([], [])).1 →
        p.2.length < (cs.foldl choose ([], [])).2.length := by
  induction cs using List.reverseRecOn with
  | nil => intro _ h; exact absurd rfl h
  | append_singleton pre c ih =>
    intro hids _
    have hc : c.1.length ≠ 0 := hids c (by simp)
    rw [List.foldl_append]
    simp only [List.foldl_cons, List.foldl_nil]
    by_cases hpre : pre = []
    · subst hpre
      have hne : ¬ c.1 = [] := fun h0 => hc (by rw [h0]; rfl)
      have hsel : choose ([], []) c = c := by simp [choose, hne]
      simp only [List.foldl_nil, hsel, List.nil_append, List.mem_singleton]
      refine ⟨?_, ?_, [], [], rfl, ?_⟩
      · intro p hp
        rw [hp, bytesCompare_self]
        decide
      · intro p hp _
        rw [hp]
      · intro p hp
        cases hp
    · obtain ⟨h1, h2, p1, p2, h3, h4⟩ := ih (fun p hp => hids p (by simp [hp])) hpre
      generalize pre.foldl choose ([], []) = low at h1 h2 h3 h4 ⊢
      have hlowmem : low ∈ pre := by rw [h3]; simp
      have hlow : ¬ low.1.length = 0 := hids low (by simp [hlowmem])
      by_cases heq : c.1 = low.1
      · by_cases hlen : c.2.length > low.2.length
        · have hsel : choose low c = c := by simp [choose, heq, hlen]
          rw [hsel]
          refine ⟨?_, ?_, pre, [], rfl, ?_⟩
          · intro p hp
            rcases List.mem_append.mp hp with hp | hp
            · rw [heq]; exact h1 p hp
            · simp only [List.mem_singleton] at hp
              rw [hp, bytesCompare_self]
              decide
          · intro p hp hpid
            rcases List.mem_append.mp hp with hp | hp
            · have := h2 p hp (by rw [hpid, heq])
              omega
            · simp only [List.mem_singleton] at hp
              rw [hp]
          · intro p hp hpid
            have := h2 p hp (by rw [hpid, heq])
            omega
        · have hsel : choose low c = low := by simp [choose, heq, hlen]
          rw [hsel]
          refine ⟨?_, ?_, p1, p2 ++ [c], ?_, h4⟩
          · intro p hp
            rcases List.mem_append.mp hp with hp | hp
            · exact h1 p hp
            · simp only [List.mem_singleton] at hp
              rw [hp, heq, bytesCompare_self]
              decide
          · intro p hp hpid
            rcases List.mem_append.mp hp with hp | hp
            · exact h2 p hp hpid
            · simp only [List.mem_singleton] at hp
              rw [hp]
              omega
          · have hassoc : p1 ++ low :: (p2 ++ [c]) = (p1 ++ low :: p2) ++ [c] := by simp
            rw [hassoc, ← h3]
      · by_cases hlt : bytesCompare c.1 low.1 = -1
        · have hsel : choose low c = c := by simp [choose, heq, hlow, hlt]
          have hswap : bytesCompare low.1 c.1 = 1 := (bytesCompare_swap low.1 c.1).mpr hlt
          rw [hsel]
          refine ⟨?_, ?_, pre, [], rfl, ?_⟩
          · intro p hp
            rcases List.mem_append.mp hp with hp | hp
            · rw [bytesCompare_trans c.1 low.1 p.1 hlt (h1 p hp)]
              decide
            · simp only [List.mem_singleton] at hp
              rw [hp, bytesCompare_self]
              decide
          · intro p hp hpid
            rcases List.mem_append.mp hp with hp | hp
            · have := h1 p hp
              rw [hpid] at this
              exact absurd hswap this
            · simp only [List.mem_singleton] at hp
              rw [hp]
          · intro p hp hpid
            have := h1 p hp
            rw [hpid] at this
            exact absurd hswap this
        · have hsel : choose low c = low := by simp [choose, heq, hlow, hlt]
          rw [hsel]
          refine ⟨?_, ?_, p1, p2 ++ [c], ?_, h4⟩
          · intro p hp
            rcases List.mem_append.mp hp with hp | hp
            · exact h1 p hp
            · simp only [List.mem_singleton] at hp
              rw [hp]
              intro hone
              exact hlt ((bytesCompare_swap low.1 c.1).mp hone)
          · intro p hp hpid
            rcases List.mem_append.mp hp with hp | hp
            · exact h2 p hp hpid
            · simp only [List.mem_singleton] at hp
              rw [hp] at hpid
              exact absurd hpid heq
          · have hassoc : p1 ++ low :: (p2 ++ [c]) = (p1 ++ low :: p2) ++ [c] := by simp
            rw [hassoc, ← h3]

/-- C15: in a scan that completes over candidates with non-empty ids (the
current pairs of the bookmarks that did not report `io.EOF`), the selected
`lowestID` is byte-wise not above any candidate id, `lowestObject` is at
least as long as the object of every candidate with that id, and the
selected pair is the candidate of the earliest bookmark among those with
that id and that length: every earlier candidate with the id is strictly
shorter. -/
theorem findLowest_selects_minimum (env : Env) (chunk : Nat) (bs bs1 : List Bookmark)
    (id object : Bytes)
    (hscan : findLowest env chunk bs [] [] = .ok (bs1, id, object))
    (hids : ∀ p ∈ candidates env chunk bs, p.1.length ≠ 0)
    (hsome : candidates env chunk bs ≠ []) :
    (∀ p ∈ candidates env chunk bs, bytesCompare id p.1 ≠ 1) ∧
    (∀ p ∈ candidates env chunk bs, p.1 = id → p.2.length ≤ object.length) ∧
    ∃ pre post, candidates env chunk bs = pre ++ (id, object) :: post ∧
      ∀ p ∈ pre, p.1 = id → p.2.length < object.length := by
  have hsel := findLowest_select hscan
  have hspec := foldl_choose_spec (candidates env chunk bs) hids hsome
  rw [← hsel] at hspec
  exact hspec

/-- Witness of C15: the candidates are `([2],"x")` and `([1,0],"y")`; the
scan selects the id `[1, 0]`, which is byte-wise below `[2]` although it
is the larger number. -/
theorem findLowest_selects_minimum_witness :
    candidates envByteOrder chunkSizeBytes (initialState envByteOrder [0, 1]).bookmarks
      = [([2], [120]), ([1, 0], [121])] ∧
    ((∀ p ∈ candidates envByteOrder chunkSizeBytes (initialState envByteOrder [0, 1]).bookmarks,
        bytesCompare [1, 0] p.1 ≠ 1) ∧
     (∀ p ∈ candidates envByteOrder chunkSizeBytes (initialState envByteOrder [0, 1]).bookmarks,
        p.1 = [1, 0] → p.2.length ≤ ([121] : Bytes).length) ∧
     ∃ pre post,
       candidates envByteOrder chunkSizeBytes (initialState envByteOrder [0, 1]).bookmarks
         = pre ++ ([1, 0], [121]) :: post ∧
       ∀ p ∈ pre, p.1 = [1, 0] → p.2.length < ([121] : Bytes).length) :=
  ⟨by decide!,
   findLowest_selects_minimum envByteOrder chunkSizeBytes
     (initialState envByteOrder [0, 1]).bookmarks
     ((initialState envByteOrder [0, 1]).bookmarks.map
       (fun b => (currentObject envByteOrder chunkSizeBytes b).1))
     [1, 0] [121] (by decide!) (by decide!) (by decide!)⟩

/-! ## Cached pairs and empty objects -/

theorem openBlock_error_origin {env : Env} {cb : Option (List Pair)} {trace trace1 : List Event}
    {e : Err} (h : openBlock env cb trace = .error (e, trace1)) :
    ∃ c t, env.fails c t = some e := by
  unfold openBlock at h
  cases cb with
  | some blk => cases h
  | none =>
    simp only at h
    cases h1 : env.fails .NewWorkingBlock trace with
    | some e1 =>
      rw [h1] at h
      simp only [Except.error.injEq, Prod.mk.injEq] at h
      exact ⟨_, _, by rw [h1, h.1]⟩
    | none =>
      rw [h1] at h
      simp only at h
      cases h2 : env.fails .newCompactorBlock (trace ++ [.allocated]) with
      | some e2 =>
        rw [h2] at h
        simp only [Except.error.injEq, Prod.mk.injEq] at h
        exact ⟨_, _, by rw [h2, h.1]⟩
      | none =>
        rw [h2] at h
        cases h

theorem shipIfDone_fail_origin {env : Env} {rpb : Nat} {bms : List Bookmark} {blk : List Pair}
    {trace trace1 : List Event} {e : Err}
    (h : shipIfDone env rpb bms blk trace = .fail e trace1) :
    ∃ c t, env.fails c t = some e := by
  unfold shipIfDone at h
  by_cases hlen : blk.length ≥ rpb
  · rw [if_pos hlen] at h
    cases h1 : env.fails .meta trace with
    | some e1 =>
      rw [h1] at h
      simp only [PassResult.fail.injEq] at h
      exact ⟨_, _, by rw [h1, h.1]⟩
    | none =>
      rw [h1] at h
      simp only at h
      cases h2 : env.fails .index trace with
      | some e2 =>
        rw [h2] at h
        simp only [PassResult.fail.injEq] at h
        exact ⟨_, _, by rw [h2, h.1]⟩
      | none =>
        rw [h2] at h
        simp only at h
        cases h3 : env.fails .bloom trace with
        | some e3 =>
          rw [h3] at h
          simp only [PassResult.fail.injEq] at h
          exact ⟨_, _, by rw [h3, h.1]⟩
        | none =>
          rw [h3] at h
          simp only at h
          cases h4 : env.fails (.Write blk) trace with
          | some e4 =>
            rw [h4] at h
            simp only [PassResult.fail.injEq] at h
            exact ⟨_, _, by rw [h4, h.1]⟩
          | none =>
            rw [h4] at h
            cases h
  · rw [if_neg hlen] at h
    cases h

/-- C12 fails as stated: the buffer holds `(1, "")` followed by
`(2, "y")`.  The first `currentObject` call returns `(1, "")`; the next
call, with no advance in between, decodes again, returns `(2, "y")` and
consumes the rest of the buffer. -/
theorem currentObject_empty_object_overwritten :
    (currentObject envEmptyObject chunkSizeBytes (freshBookmark envEmptyObject 0)).2
      = .ok ([1], []) ∧
    (currentObject envEmptyObject chunkSizeBytes (freshBookmark envEmptyObject 0)).1.objects
      = [1, 1, 2, 121] ∧
    (currentObject envEmptyObject chunkSizeBytes
      (currentObject envEmptyObject chunkSizeBytes (freshBookmark envEmptyObject 0)).1).2
      = .ok ([2], [121]) ∧
    (currentObject envEmptyObject chunkSizeBytes
      (currentObject envEmptyObject chunkSizeBytes (freshBookmark envEmptyObject 0)).1).1.objects
      = [] := by
  refine ⟨by decide!, by decide!, by decide!, by decide!⟩

/-- C12, amended: once `currentObject` has returned a pair whose id and
object are both non-empty, every further call with no advance in between
returns the same pair and leaves the bookmark as it is: the cached pair,
the remaining index and the object buffer are unchanged. -/
theorem currentObject_cached (env : Env) (chunk : Nat) (b b1 : Bookmark) (id object : Bytes)
    (h : currentObject env chunk b = (b1, .ok (id, object)))
    (hid : id.length ≠ 0) (hob : object.length ≠ 0) (n : Nat) :
    Nat.iterate (fun x => (currentObject env chunk x).1) n b1 = b1 ∧
    currentObject env chunk (Nat.iterate (fun x => (currentObject env chunk x).1) n b1)
      = (b1, .ok (id, object)) := by
  obtain ⟨hcid, hcobj⟩ := currentObject_ok h
  have hcall : currentObject env chunk b1 = (b1, .ok (id, object)) := by
    unfold currentObject
    rw [hcid, hcobj, if_pos ⟨hid, hob⟩]
  have hfix : (fun x => (currentObject env chunk x).1) b1 = b1 := by
    simp only [hcall]
  have hiter : Nat.iterate (fun x => (currentObject env chunk x).1) n b1 = b1 :=
    @Function.iterate_fixed Bookmark (fun x => (currentObject env chunk x).1) b1 hfix n
  exact ⟨hiter, by rw [hiter, hcall]⟩

/-- Witness of C12, amended: the first call on the sample block returns
`(1, "x")`, and so does the call after three further calls. -/
theorem currentObject_cached_witness :
    (currentObject envTwoRecords chunkSizeBytes (freshBookmark envTwoRecords 0)).2
      = .ok ([1], [120]) ∧
    (Nat.iterate (fun x => (currentObject envTwoRecords chunkSizeBytes x).1) 3
        (currentObject envTwoRecords chunkSizeBytes (freshBookmark envTwoRecords 0)).1
      = (currentObject envTwoRecords chunkSizeBytes (freshBookmark envTwoRecords 0)).1 ∧
     currentObject envTwoRecords chunkSizeBytes
        (Nat.iterate (fun x => (currentObject envTwoRecords chunkSizeBytes x).1) 3
          (currentObject envTwoRecords chunkSizeBytes (freshBookmark envTwoRecords 0)).1)
      = ((currentObject envTwoRecords chunkSizeBytes (freshBookmark envTwoRecords 0)).1,
         .ok ([1], [120]))) :=
  ⟨by decide!,
   currentObject_cached envTwoRecords chunkSizeBytes (freshBookmark envTwoRecords 0)
     (currentObject envTwoRecords chunkSizeBytes (freshBookmark envTwoRecords 0)).1
     [1] [120] (by decide!) (by decide) (by decide) 3⟩

/-- C20 fails as stated: the only bookmark yields the record `(1, "")`,
with a non-empty id, and the pass fails with `failed to find a lowest
object in compaction`. -/
theorem compact_empty_object_no_lowest :
    (currentObject envEmptyObject chunkSizeBytes (freshBookmark envEmptyObject 0)).2
      = .ok ([1], []) ∧
    compact envEmptyObject 1 [0] = .returned (some .noLowest) [] := by
  refine ⟨by decide!, by decide!⟩

/-- C20, amended: a pass in which at least one bookmark yields a record and
every record yielded has a non-empty id and a non-empty object never fails
with `failed to find a lowest object in compaction` (no collaborator
returning that error value of `compact`). -/
theorem pass_no_lowest (env : Env) (chunk rpb : Nat) (st : State)
    (hsome : candidates env chunk st.bookmarks ≠ [])
    (hne : ∀ p ∈ candidates env chunk st.bookmarks, p.1.length ≠ 0 ∧ p.2.length ≠ 0)
    (hfails : ∀ c t, env.fails c t ≠ some .noLowest)
    (hreads : ∀ b ∈ st.bookmarks, (currentObject env chunk b).2 ≠ .error .noLowest)
    (trace : List Event) :
    pass env chunk rpb st ≠ .fail .noLowest trace := by
  intro hp
  unfold pass at hp
  cases hf : findLowest env chunk st.bookmarks [] [] with
  | panic => rw [hf] at hp; cases hp
  | error e =>
    rw [hf] at hp
    simp only [PassResult.fail.injEq] at hp
    obtain ⟨b, hb, hbe⟩ := findLowest_error_origin hf
    rw [hp.1] at hbe
    exact hreads b hb hbe
  | ok r =>
    obtain ⟨bms, id, object⟩ := r
    rw [hf] at hp
    simp only at hp
    have hsel := findLowest_select hf
    obtain ⟨-, -, pre, post, hdec, -⟩ :=
      foldl_choose_spec (candidates env chunk st.bookmarks) (fun p hp1 => (hne p hp1).1) hsome
    rw [← hsel] at hdec
    have hmem : (id, object) ∈ candidates env chunk st.bookmarks := by
      rw [hdec]; simp
    have hboth := hne (id, object) hmem
    have hlow : ¬ (id.length = 0 ∨ object.length = 0) := by
      intro h0
      rcases h0 with h0 | h0
      · exact hboth.1 h0
      · exact hboth.2 h0
    rw [if_neg hlow] at hp
    cases ho : openBlock env st.currentBlock st.trace with
    | error r1 =>
      obtain ⟨e, t1⟩ := r1
      rw [ho] at hp
      simp only [PassResult.fail.injEq] at hp
      obtain ⟨c, t, hct⟩ := openBlock_error_origin ho
      rw [hp.1] at hct
      exact hfails c t hct
    | ok r1 =>
      obtain ⟨blk, t1⟩ := r1
      rw [ho] at hp
      simp only at hp
      cases hw : env.fails (.write id object) t1 with
      | some e =>
        rw [hw] at hp
        simp only [PassResult.fail.injEq] at hp
        rw [hp.1] at hw
        exact hfails _ _ hw
      | none =>
        rw [hw] at hp
        simp only at hp
        obtain ⟨c, t, hct⟩ := shipIfDone_fail_origin hp
        exact hfails c t hct

/-- Witness of C20, amended: the first pass over `A = [(1,"x"),(3,"y")]`,
`B = [(2,"z"),(3,"yy")]`. -/
theorem pass_no_lowest_witness :
    candidates envTie chunkSizeBytes (initialState envTie [0, 1]).bookmarks
      = [([1], [120]), ([2], [122])] ∧
    pass envTie chunkSizeBytes 3 (initialState envTie [0, 1])
      ≠ .fail .noLowest [.allocated] :=
  ⟨by decide!,
   pass_no_lowest envTie chunkSizeBytes 3 (initialState envTie [0, 1]) (by decide!)
     (by decide!) (fun c t h => by cases h) (by decide!) [.allocated]⟩

/-! ## A loop over cached pairs makes no progress -/

theorem currentObject_of_cached (env : Env) (chunk : Nat) {b : Bookmark} (h : Cached b) :
    currentObject env chunk b = (b, .ok (b.currentID, b.currentObject)) := by
  have h1 : b.currentID.length ≠ 0 ∧ b.currentObject.length ≠ 0 := h
  unfold currentObject
  rw [if_pos h1]

/-- A scan over bookmarks that all cache a pair reads nothing and leaves
every bookmark as it is. -/
theorem findLowest_cached (env : Env) (chunk : Nat) {bs : List Bookmark}
    (h : ∀ b ∈ bs, Cached b) (lowestID lowestObject : Bytes) :
    ∃ id object, findLowest env chunk bs lowestID lowestObject = .ok (bs, id, object) := by
  induction bs generalizing lowestID lowestObject with
  | nil => exact ⟨_, _, rfl⟩
  | cons b rest ih =>
    have hb := currentObject_of_cached env chunk (h b (List.mem_cons_self b rest))
    unfold findLowest
    rw [hb]
    simp only
    generalize
      (if b.currentID = lowestID then
        if b.currentObject.length > lowestObject.length then (b.currentID, b.currentObject)
        else (lowestID, lowestObject)
      else if lowestID.length = 0 ∨ bytesCompare b.currentID lowestID = -1 then
        (b.currentID, b.currentObject)
      else (lowestID, lowestObject)) = next
    obtain ⟨id, object, hrest⟩ :=
      ih (fun x hx => h x (List.mem_cons_of_mem b hx)) next.1 next.2
    rw [hrest]
    exact ⟨id, object, rfl⟩

theorem candidates_cached (env : Env) (chunk : Nat) {bs : List Bookmark}
    (h : ∀ b ∈ bs, Cached b) :
    candidates env chunk bs = bs.map (fun b => (b.currentID, b.currentObject)) := by
  induction bs with
  | nil => rfl
  | cons b rest ih =>
    have hb := currentObject_of_cached env chunk (h b (List.mem_cons_self b rest))
    simp only [candidates, hb, List.map_cons]
    rw [ih (fun x hx => h x (List.mem_cons_of_mem b hx))]

/-- A pass over bookmarks that all cache a pair, with no write-side call
failing, completes and leaves every bookmark as it is. -/
theorem pass_cached_next (env : Env) (chunk rpb : Nat) (st : State)
    (hc : ∀ b ∈ st.bookmarks, Cached b) (hne : st.bookmarks ≠ [])
    (hfails : ∀ c t, env.fails c t = none) :
    ∃ st1, pass env chunk rpb st = .next st1 ∧ st1.bookmarks = st.bookmarks := by
  obtain ⟨id, object, hf⟩ := findLowest_cached env chunk hc [] []
  have hcand := candidates_cached env chunk hc
  have hsome : candidates env chunk st.bookmarks ≠ [] := by
    rw [hcand]
    simpa using hne
  have hall : ∀ p ∈ candidates env chunk st.bookmarks, p.1.length ≠ 0 ∧ p.2.length ≠ 0 := by
    intro p hp
    rw [hcand] at hp
    obtain ⟨b, hb, rfl⟩ := List.mem_map.mp hp
    exact hc b hb
  have hsel := findLowest_select hf
  obtain ⟨-, -, pre, post, hdec, -⟩ :=
    foldl_choose_spec (candidates env chunk st.bookmarks) (fun p hp => (hall p hp).1) hsome
  rw [← hsel] at hdec
  have hboth := hall (id, object) (by rw [hdec]; simp)
  have hlow : ¬ (id.length = 0 ∨ object.length = 0) := by
    intro h0
    rcases h0 with h0 | h0
    · exact hboth.1 h0
    · exact hboth.2 h0
  unfold pass
  rw [hf]
  simp only [if_neg hlow]
  unfold openBlock shipIfDone
  cases st.currentBlock with
  | some blk =>
    simp only [hfails]
    split
    · exact ⟨_, rfl, rfl⟩
    · exact ⟨_, rfl, rfl⟩
  | none =>
    simp only [hfails]
    split
    · exact ⟨_, rfl, rfl⟩
    · exact ⟨_, rfl, rfl⟩

/-- From a state whose bookmarks all cache a pair, with no write-side call
failing, the merge loop is still running after any number of passes. -/
theorem mergeLoop_cached_running (env : Env) (chunk rpb : Nat) (ids : List BlockID)
    (hfails : ∀ c t, env.fails c t = none) (fuel : Nat) (st : State)
    (hc : ∀ b ∈ st.bookmarks, Cached b) (hne : st.bookmarks ≠ []) :
    (mergeLoop env chunk rpb ids fuel st).isRunning = true := by
  have hnd : allDone st.bookmarks = false := by
    obtain ⟨b, rest, hbs⟩ := List.exists_cons_of_ne_nil hne
    have hb : b ∈ st.bookmarks := by rw [hbs]; exact List.mem_cons_self b rest
    apply allDone_false_of_mem hb
    have h1 := (hc b hb).1
    have h2 := (hc b hb).2
    simp [Bookmark.done, h1, h2]
  induction fuel generalizing st with
  | zero =>
    unfold mergeLoop
    rw [hnd]
    rfl
  | succ fuel ih =>
    obtain ⟨st1, hp, hbm⟩ := pass_cached_next env chunk rpb st hc hne hfails
    unfold mergeLoop
    rw [hnd]
    simp only [Bool.false_eq_true, if_false]
    rw [hp]
    simp only
    have hc1 : ∀ b ∈ st1.bookmarks, Cached b := by rw [hbm]; exact hc
    have hne1 : st1.bookmarks ≠ [] := by rw [hbm]; exact hne
    have hnd1 : allDone st1.bookmarks = false := by rw [hbm]; exact hnd
    exact ih st1 hc1 hne1 hnd1

/-- The bookmark whose pair a completed pass wrote still caches that pair
when the pass is over. -/
theorem pass_next_winner_cached {env : Env} {chunk rpb : Nat} {st st1 : State}
    (h : pass env chunk rpb st = .next st1) :
    ∃ id object, id.length ≠ 0 ∧ object.length ≠ 0 ∧ .appended id object ∈ st1.trace ∧
      ∃ b ∈ st1.bookmarks, b.currentID = id ∧ b.currentObject = object := by
  obtain ⟨bms, id, object, hf, hid, hob, hcase⟩ := pass_next_cases h
  have hw : ∃ b ∈ bms, b.currentID = id ∧ b.currentObject = object := by
    rcases findLowest_winner hf with ⟨h1, -⟩ | hw
    · rw [h1] at hid
      exact absurd rfl hid
    · exact hw
  refine ⟨id, object, hid, hob, ?_, ?_⟩
  · rcases hcase with ⟨-, rfl⟩ | ⟨-, ok, rfl⟩ <;> simp
  · rcases hcase with ⟨-, rfl⟩ | ⟨-, ok, rfl⟩ <;> exact hw

/-- C11: no bookmark is advanced past the record a pass writes.  After
every completed pass the pair just written is still the cached current pair
of a bookmark.  On `A = [(1,"x"),(3,"y")]`, `B = [(2,"z"),(3,"yy")]` the
first pass writes `(1,"x")` and leaves the current pairs `(1,"x")` and
`(2,"z")`; the second pass writes `(1,"x")` again and leaves the same
current pairs. -/
theorem compact_winner_not_advanced :
    (∀ (env : Env) (chunk rpb : Nat) (st st1 : State),
      pass env chunk rpb st = .next st1 →
      ∃ id object, id.length ≠ 0 ∧ object.length ≠ 0 ∧ .appended id object ∈ st1.trace ∧
        ∃ b ∈ st1.bookmarks, b.currentID = id ∧ b.currentObject = object) ∧
    Option.map
        (fun st => (st.trace, st.bookmarks.map (fun b => (b.currentID, b.currentObject))))
        (passes envTie chunkSizeBytes (totalRecords envTie [0, 1] / outputBlocks + 1) 1
          (initialState envTie [0, 1]))
      = some ([.allocated, .appended [1] [120]], [([1], [120]), ([2], [122])]) ∧
    Option.map
        (fun st => (st.trace, st.bookmarks.map (fun b => (b.currentID, b.currentObject))))
        (passes envTie chunkSizeBytes (totalRecords envTie [0, 1] / outputBlocks + 1) 2
          (initialState envTie [0, 1]))
      = some ([.allocated, .appended [1] [120], .appended [1] [120]],
              [([1], [120]), ([2], [122])]) := by
  refine ⟨?_, by decide!, by decide!⟩
  intro env chunk rpb st st1 h
  exact pass_next_winner_cached h

/-- C14: the pairs a bookmark yields depend on the chunk threshold.  On a
block file of eight bytes holding `(1,"x")` and `(2,"y")`, with contiguous
objects and an honest index, repeated `nextObject` calls with threshold 1
yield both pairs and then `io.EOF`; with threshold `chunkSizeBytes` the
first call panics and nothing is yielded.  `compact` with threshold 1
writes records and ships a block; with `chunkSizeBytes` it panics in the
first pass. -/
theorem nextObject_threshold_dependent :
    (freshBookmark envSmallBlock 0).index
      = [{ ID := [1], Start := 0, Length := 4 }, { ID := [2], Start := 4, Length := 4 }] ∧
    drain envSmallBlock 1 5 (freshBookmark envSmallBlock 0)
      = ([([1], [120]), ([2], [121])], .ended .eof) ∧
    drain envSmallBlock chunkSizeBytes 5 (freshBookmark envSmallBlock 0) = ([], .panicked) ∧
    shippedBlocks (compactWith 1 outputBlocks envSmallBlock 2 [0]).trace
      = [[([1], [120]), ([1], [120])]] ∧
    compact envSmallBlock 2 [0] = .panicked [] := by
  refine ⟨by decide!, by decide!, by decide!, by decide!, by decide!⟩

/-- C18: the merge loop does not terminate.  On one input block holding
`(1,"x")`, `(2,"y")` (two records, every backend call succeeding) the loop
is still running after any number of passes. -/
theorem compact_never_terminates :
    totalRecords envTwoRecords [0] = 2 ∧
    ∀ fuel, (compact envTwoRecords fuel [0]).isRunning = true := by
  refine ⟨by decide!, ?_⟩
  intro fuel
  cases fuel with
  | zero => decide!
  | succ k =>
    have hl : ∀ x ∈ [0], Loads envTwoRecords x := by
      intro x hx
      simp only [List.mem_singleton] at hx
      subst hx
      exact ⟨_, _, _, rfl, rfl, rfl⟩
    have h1 : passes envTwoRecords chunkSizeBytes
        (totalRecords envTwoRecords [0] / outputBlocks + 1) 1 (initialState envTwoRecords [0])
        = some { bookmarks := [{ id := 0,
                                 index := [{ ID := [2], Start := 10485760,
                                             Length := 10485760 }],
                                 objects := [], currentID := [1], currentObject := [120] }],
                 currentBlock := some [([1], [120])],
                 trace := [.allocated, .appended [1] [120]] } := by
      decide!
    have hfuel : k + 1 = 1 + k := by omega
    rw [compact_of_loads hl, hfuel, mergeLoop_passes h1 k]
    apply mergeLoop_cached_running
    · intro c t
      rfl
    · intro b hb
      simp only [List.mem_singleton] at hb
      subst hb
      exact ⟨by decide, by decide⟩
    · simp

/-! ## The end of the merge loop, for any `bookmark.done` -/

theorem allDoneBy_done (bs : List Bookmark) : allDoneBy Bookmark.done bs = allDone bs := by
  induction bs with
  | nil => rfl
  | cons b rest ih => simp only [allDoneBy, allDone, ih]

theorem mergeLoopBy_done (env : Env) (chunk rpb : Nat) (ids : List BlockID) (fuel : Nat)
    (st : State) :
    mergeLoopBy Bookmark.done env chunk rpb ids fuel st = mergeLoop env chunk rpb ids fuel st := by
  induction fuel generalizing st with
  | zero =>
    unfold mergeLoopBy mergeLoop
    rw [allDoneBy_done]
  | succ fuel ih =>
    unfold mergeLoopBy mergeLoop
    rw [allDoneBy_done]
    split
    · rfl
    · cases pass env chunk rpb st with
      | next st1 => exact ih st1
      | fail e trace => rfl
      | panic trace => rfl

theorem compactBy_done (env : Env) (fuel : Nat) (ids : List BlockID) :
    compactBy Bookmark.done env fuel ids = compact env fuel ids := by
  unfold compactBy compact compactWith
  cases load env ids 0 [] [] with
  | error e => rfl
  | ok r =>
    obtain ⟨total, bms, metas⟩ := r
    exact mergeLoopBy_done _ _ _ _ _ _

theorem compactBy_of_loads (done : Bookmark → Bool) {env : Env} {ids : List BlockID}
    (h : ∀ x ∈ ids, Loads env x) (fuel : Nat) :
    compactBy done env fuel ids
      = mergeLoopBy done env chunkSizeBytes (totalRecords env ids / outputBlocks + 1) ids fuel
          (initialState env ids) := by
  obtain ⟨r, hr⟩ := load_loads h 0 [] []
  obtain ⟨total, bms, metas⟩ := r
  obtain ⟨ht, hb, -⟩ := load_ok hr
  unfold compactBy
  rw [hr]
  simp only [initialState]
  rw [ht, hb]
  simp

theorem mergeLoopBy_passes {done : Bookmark → Bool} {env : Env} {chunk rpb : Nat}
    {ids : List BlockID} {n : Nat} {st st1 : State}
    (h : passesBy done env chunk rpb n st = some st1) (m : Nat) :
    mergeLoopBy done env chunk rpb ids (n + m) st = mergeLoopBy done env chunk rpb ids m st1 := by
  induction n generalizing st with
  | zero =>
    unfold passesBy at h
    cases h
    simp
  | succ n ih =>
    unfold passesBy at h
    by_cases hd : allDoneBy done st.bookmarks = true
    · rw [if_pos hd] at h; cases h
    · rw [if_neg hd] at h
      have hfuel : n + 1 + m = (n + m) + 1 := by omega
      rw [hfuel]
      conv_lhs => unfold mergeLoopBy
      rw [if_neg hd]
      cases hpass : pass env chunk rpb st with
      | next st2 =>
        rw [hpass] at h
        exact ih h
      | fail e trace1 => rw [hpass] at h; cases h
      | panic trace1 => rw [hpass] at h; cases h

theorem passesBy_marks {done : Bookmark → Bool} {env : Env} {chunk rpb : Nat} {n : Nat}
    {st st1 : State} (h : passesBy done env chunk rpb n st = some st1) :
    markedIDs st1.trace = markedIDs st.trace := by
  induction n generalizing st with
  | zero =>
    unfold passesBy at h
    cases h
    rfl
  | succ n ih =>
    unfold passesBy at h
    by_cases hd : allDoneBy done st.bookmarks = true
    · rw [if_pos hd] at h; cases h
    · rw [if_neg hd] at h
      obtain ⟨added, hp, hm, -⟩ := pass_trace env chunk rpb st
      cases hpass : pass env chunk rpb st with
      | next st2 =>
        rw [hpass] at h hp
        simp only [PassResult.trace] at hp
        rw [ih h, hp, markedIDs_append, hm, List.append_nil]
      | fail e trace1 => rw [hpass] at h; cases h
      | panic trace1 => rw [hpass] at h; cases h

/-- C8: take `bookmark.done` (declared outside `compactor.go`) to be any
predicate.  When the merge loop ends after `k` passes with all bookmarks
done, `compact` returns `nil` and has called `MarkBlockCompacted` once for
every input block id, in input order, after everything else, whatever the
mark calls and the `clear` calls of the passes returned; the blocks shipped
by the passes stay shipped.  With the `done` of the specification this is
the result of `compact`. -/
theorem compact_marks_all (done : Bookmark → Bool) (env : Env) (ids : List BlockID)
    (k fuel : Nat) (st : State)
    (hload : ∀ x ∈ ids, Loads env x)
    (hk : passesBy done env chunkSizeBytes (totalRecords env ids / outputBlocks + 1) k
      (initialState env ids) = some st)
    (hdone : allDoneBy done st.bookmarks = true) :
    ∃ marks, compactBy done env (k + fuel) ids = .returned none (st.trace ++ marks) ∧
      markedIDs (st.trace ++ marks) = ids ∧ markedIDs marks = ids ∧
      marks.length = ids.length ∧
      shippedBlocks (st.trace ++ marks) = shippedBlocks st.trace ∧
      (done = Bookmark.done →
        compact env (k + fuel) ids = .returned none (st.trace ++ marks)) := by
  obtain ⟨marks, hm, hids, hship, hlen⟩ := markAll_trace env ids st.trace
  have hrun : compactBy done env (k + fuel) ids = .returned none (st.trace ++ marks) := by
    rw [compactBy_of_loads done hload, mergeLoopBy_passes hk fuel]
    unfold mergeLoopBy
    rw [if_pos hdone, hm]
  refine ⟨marks, hrun, ?_, hids, hlen, ?_, ?_⟩
  · rw [markedIDs_append, passesBy_marks hk, hids]
    simp [initialState, markedIDs]
  · rw [shippedBlocks_append, hship, List.append_nil]
  · intro hd
    rw [← compactBy_done, ← hd]
    exact hrun

/-- Witness of C8: block 0 holds `(1,"x")`, block 1 is empty, `done` is
"buffer and index exhausted".  The one pass ships a block and its `clear`
fails; the loop then ends, marking block 0 fails, block 1 is marked all the
same, and the run returns `nil`. -/
theorem compact_marks_all_witness :
    compactBy doneExhausted envClearAndMarkFail 1 [0, 1]
      = .returned none
          [.allocated, .appended [1] [120], .shipped [([1], [120])], .cleared false,
           .marked 0 false, .marked 1 true] ∧
    ∃ marks, compactBy doneExhausted envClearAndMarkFail (1 + 0) [0, 1]
        = .returned none
            ([.allocated, .appended [1] [120], .shipped [([1], [120])], .cleared false]
              ++ marks) ∧
      markedIDs ([.allocated, .appended [1] [120], .shipped [([1], [120])],
                  .cleared false] ++ marks) = [0, 1] ∧
      markedIDs marks = [0, 1] ∧ marks.length = [0, 1].length ∧
      shippedBlocks ([.allocated, .appended [1] [120], .shipped [([1], [120])],
                      .cleared false] ++ marks)
        = shippedBlocks [.allocated, .appended [1] [120], .shipped [([1], [120])],
                         .cleared false] ∧
      (doneExhausted = Bookmark.done →
        compact envClearAndMarkFail (1 + 0) [0, 1]
          = .returned none
              ([.allocated, .appended [1] [120], .shipped [([1], [120])], .cleared false]
                ++ marks)) :=
  have hload : ∀ x ∈ [0, 1], Loads envClearAndMarkFail x := by
    intro x hx
    simp only [List.mem_cons, List.mem_singleton, List.not_mem_nil, or_false] at hx
    rcases hx with rfl | rfl
    · exact ⟨_, _, _, rfl, rfl, rfl⟩
    · exact ⟨_, _, _, rfl, rfl, rfl⟩
  ⟨by decide!,
   compact_marks_all doneExhausted envClearAndMarkFail [0, 1] 1 0
     { bookmarks := [{ id := 0, index := [], objects := [], currentID := [1],
                       currentObject := [120] },
                     { id := 1, index := [], objects := [], currentID := [],
                       currentObject := [] }],
       currentBlock := none,
       trace := [.allocated, .appended [1] [120], .shipped [([1], [120])], .cleared false] }
     hload (by decide!) (by decide!)⟩

/-- C10: the block holds `(1,"x")` followed by a corrupt frame.  `compact`
never decodes the corrupt frame: after two passes it has written an output
block to the backend, and it is still running after any number of passes,
so the run never ends with a decode error. -/
theorem compact_ships_before_corrupt_frame :
    envCorruptSecond.Object 0 chunkSizeBytes chunkSizeBytes = .ok [1] ∧
    envCorruptSecond.UnmarshalObjectFromReader [1] = .error (.other 1) ∧
    shippedBlocks (compact envCorruptSecond 2 [0]).trace = [[([1], [120]), ([1], [120])]] ∧
    (compact envCorruptSecond 2 [0]).isRunning = true ∧
    ∀ fuel, (compact envCorruptSecond fuel [0]).isRunning = true := by
  refine ⟨by rfl, by rfl, by decide!, by decide!, ?_⟩
  intro fuel
  cases fuel with
  | zero => decide!
  | succ k =>
    have hl : ∀ x ∈ [0], Loads envCorruptSecond x := by
      intro x hx
      simp only [List.mem_singleton] at hx
      subst hx
      exact ⟨_, _, _, rfl, rfl, rfl⟩
    have h1 : passes envCorruptSecond chunkSizeBytes
        (totalRecords envCorruptSecond [0] / outputBlocks + 1) 1
        (initialState envCorruptSecond [0])
        = some { bookmarks := [{ id := 0,
                                 index := [{ ID := [2], Start := 10485760,
                                             Length := 10485760 }],
                                 objects := [], currentID := [1], currentObject := [120] }],
                 currentBlock := some [([1], [120])],
                 trace := [.allocated, .appended [1] [120]] } := by
      decide!
    have hfuel : k + 1 = 1 + k := by omega
    rw [compact_of_loads hl, hfuel, mergeLoop_passes h1 k]
    apply mergeLoop_cached_running
    · intro c t
      rfl
    · intro b hb
      simp only [List.mem_singleton] at hb
      subst hb
      exact ⟨by decide, by decide⟩
    · simp

end Friggdb
